import Mathlib

/-!
Verification of the Code-Secure scanner core against its specification.

This file gives a shallow embedding, in Lean 4, of the parts of the
TypeScript source that the checked properties are about:

* `src/scanner/engine/rule-engine.ts` — `scanContent`, `isExcluded`,
  `buildLineIndex`, `indexToLine`, with JavaScript global-regex `exec`/`test`
  semantics (the stateful `lastIndex`) made explicit;
* `src/scanner/reporting/meta.ts` — `applyMetaAnalyzer`;
* `src/scanner/cache.ts` — `doSetCachedFindings`, `evictOldestEntry`,
  `estimateCacheSize`;
* `src/utils/fs.ts` — `sanitizePath`, together with a faithful model of
  Node's `path.posix.normalize` / `path.posix.resolve`;
* `src/scanner/mcp/client-http.ts` — `retryWithBackoff`;
* the MCP collector (`collect.ts`) — `pickTextContent`, over UTF-16 code
  units so that `String.prototype.slice` and `TextEncoder` byte length are
  both exact;
* `src/scanner/fix.ts` — `applyFixes` over an explicit file-system map;
* `src/scanner/confidence.ts` — `filterByConfidence`.

Strings that only ever flow through equality tests and concatenation are
modelled as Lean `String`; path and file contents, where character-level
splitting matters, are modelled as `List Char`; JS strings whose UTF-16
code-unit structure matters (the MCP resource text) are modelled as
`List Nat` of code units.  JS numbers used for confidences, delays and
jitter are modelled as `ℚ`.  Wall-clock guards (the ReDoS timeouts of
`execWithTimeout`, which compare `Date.now()` readings) are modelled as
never firing: physical time is outside the embedding, and every checked
property concerns the non-timeout logic.
-/

/-- `Severity` from `src/scanner/types.ts`. -/
inductive Severity where
  | LOW | MEDIUM | HIGH | CRITICAL
deriving DecidableEq, Repr

/-- `source` field of a finding: `"signature" | "heuristic"`. -/
inductive FindingSource where
  | signature | heuristic
deriving DecidableEq, Repr

/-- `Finding` from `src/scanner/types.ts`.  Optional JS fields become
`Option`; `confidence` (a JS number in `[0,1]`) becomes `Option ℚ`. -/
structure Finding where
  ruleId : String
  severity : Severity
  message : String
  file : String
  line : Option Nat := none
  category : Option String := none
  remediation : Option String := none
  source : Option FindingSource := none
  confidence : Option ℚ := none
  confidenceReason : Option String := none
deriving DecidableEq, Repr

namespace Meta

/-- The dedup key `${finding.ruleId}|${finding.file}|${finding.line ?? ""}|${finding.message}`
built in `applyMetaAnalyzer` (src/scanner/reporting/meta.ts). -/
def dedupKey (f : Finding) : String :=
  f.ruleId ++ "|" ++ f.file ++ "|" ++
    (match f.line with
      | some n => toString n
      | none => "") ++ "|" ++ f.message

/-- The `seen` map of `applyMetaAnalyzer`: a JS `Map` keeps insertion order,
and `set` is only called on absent keys, so it is an append-only
association list; `seen.has(key)` is membership among the stored keys. -/
def insertSeen (seen : List (String × Finding)) (f : Finding) :
    List (String × Finding) :=
  if dedupKey f ∈ seen.map Prod.fst then seen
  else seen ++ [(dedupKey f, f)]

/-- `applyMetaAnalyzer` from src/scanner/reporting/meta.ts: walk the list,
keep the first finding for each dedup key, return the kept findings in
insertion order (`Array.from(seen.values())`). -/
def applyMetaAnalyzer (findings : List Finding) : List Finding :=
  (findings.foldl insertSeen []).map Prod.snd

/-- Reference recursion: keep the first finding for each key not already in
`ks`. -/
def dedupGo (ks : List String) : List Finding → List Finding
  | [] => []
  | f :: fs =>
    if dedupKey f ∈ ks then dedupGo ks fs
    else f :: dedupGo (dedupKey f :: ks) fs

end Meta

namespace Engine

/-- A compiled JavaScript regex, abstracted by its observable matching
behaviour: `find s i` returns the leftmost match of the pattern in `s`
starting at or after position `i`, as a `(start, stop)` pair of indices
(`stop` exclusive), or `none`.  The mutable `lastIndex` of a `g`-flagged
`RegExp` is threaded explicitly by the engine model below. -/
structure RegexM where
  find : List Char → Nat → Option (Nat × Nat)

/-- A matcher is well formed when every reported match lies at or after the
requested start position and inside the string.  Every real regex engine
satisfies this. -/
def RegexWF (r : RegexM) : Prop :=
  ∀ c i s e, r.find c i = some (s, e) → i ≤ s ∧ s ≤ e ∧ e ≤ c.length

/-- Scan for the leftmost occurrence of the literal `pat` in `c` at or
after index `i`; `fuel` is a structural bound on the scan (the wrapper
passes `c.length + 2`, which always suffices: `i` grows by one per step and
the guard fires as soon as `i + pat.length` passes the end). -/
def litFindGo (pat c : List Char) : Nat → Nat → Option (Nat × Nat)
  | 0, _ => none
  | fuel + 1, i =>
    if c.length < i + pat.length then none
    else if pat.isPrefixOf (c.drop i) then some (i, i + pat.length)
    else litFindGo pat c fuel (i + 1)

/-- Leftmost occurrence of the literal `pat` in `c` at or after index `i`:
the matcher of a JS regex whose pattern is an escaped literal string. -/
def litFind (pat : List Char) (c : List Char) (i : Nat) : Option (Nat × Nat) :=
  litFindGo pat c (c.length + 2) i

/-- The literal matcher as a `RegexM`. -/
def litRegex (pat : String) : RegexM :=
  ⟨litFind pat.data⟩

/-- `RegExp.prototype.test` on a `g`-flagged regex, as called by
`isExcluded`: search from the current `lastIndex`; on success the new
`lastIndex` is the match end, on failure it resets to `0`.
(If `lastIndex` is past the end the match attempt fails.) -/
def jsTest (re : RegexM) (s : List Char) (li : Nat) : Bool × Nat :=
  if li > s.length then (false, 0)
  else
    match re.find s li with
    | none => (false, 0)
    | some (_, e) => (true, e)

/-- A compiled rule (`CompiledRule` of src/scanner/engine/rule-engine.ts).
`excludeCompiled` carries each exclude regex together with its mutable
`lastIndex` (all `0` when freshly compiled by `loadRulesFromText`). -/
structure CompiledRuleM where
  id : String
  category : String
  severity : Severity
  description : Option String := none
  remediation : Option String := none
  file_types : List String
  compiled : List RegexM
  excludeCompiled : List (RegexM × Nat)

/-- `isFileTypeMatch` from rule-engine.ts. -/
def isFileTypeMatch (rule : CompiledRuleM) (fileType : String) : Bool :=
  rule.file_types.contains fileType || rule.file_types.contains "any"

/-- `isExcluded` from rule-engine.ts:
`rule._excludeCompiled.some((re) => re.test(match))`.  `Array.some` stops at
the first hit, so regexes after it keep their old `lastIndex`; every regex
actually tested has its `lastIndex` updated by `test`.  Returns the verdict
together with the updated exclude-regex states. -/
def isExcludedRun (m : List Char) :
    List (RegexM × Nat) → Bool × List (RegexM × Nat)
  | [] => (false, [])
  | (re, li) :: rest =>
    let t := jsTest re m li
    if t.1 then (true, (re, t.2) :: rest)
    else
      let r := isExcludedRun m rest
      (r.1, (re, t.2) :: r.2)

/-- `buildLineIndex` from rule-engine.ts: offsets of line starts. -/
def buildLineIndex (content : List Char) : List Nat :=
  0 :: (List.range content.length).filterMap
    (fun i => if content.getD i ' ' = '\n' then some (i + 1) else none)

/-- The binary-search loop of `indexToLine` (rule-engine.ts, lines 95-107),
with JS number arithmetic on `Int` and `Math.floor((low+high)/2)` as floor
division.  The loop halves `high - low` each iteration, so
`lineIndex.length + 1` steps of fuel always suffice (see
`indexToLineGo_fuel`); in-range accesses make the `getD` default dead. -/
def indexToLineGo (lineIndex : List Nat) (position : Nat) :
    Nat → Int → Int → Int
  | 0, low, _ => low
  | fuel + 1, low, high =>
    if low ≤ high then
      let mid := (low + high).fdiv 2
      if lineIndex.getD mid.toNat 0 ≤ position then
        indexToLineGo lineIndex position fuel (mid + 1) high
      else
        indexToLineGo lineIndex position fuel low (mid - 1)
    else low

/-- `indexToLine` from rule-engine.ts: `Math.max(1, low)` after the search. -/
def indexToLine (lineIndex : List Nat) (position : Nat) : Nat :=
  (max 1 (indexToLineGo lineIndex position
    (lineIndex.length + 1) 0 (lineIndex.length - 1 : Int))).toNat

/-- The finding pushed by `scanContent` for a match of `rule` at `idx`. -/
def mkFinding (rule : CompiledRuleM) (filePath : String)
    (lineIndex : List Nat) (idx : Nat) : Finding :=
  { ruleId := rule.id
    severity := rule.severity
    message := rule.description.getD ("Matched rule " ++ rule.id)
    file := filePath
    line := some (indexToLine lineIndex idx)
    category := some rule.category
    remediation := rule.remediation
    source := some FindingSource.signature }

/-- State threaded through one rule's `for (const regex of rule._compiled)`
loop: accumulated findings, the rule's hit counter, and the exclude-regex
`lastIndex` states. -/
structure RuleState where
  acc : List Finding
  hits : Nat
  excl : List (RegexM × Nat)

/-- The `while ((match = execWithTimeout(...)) !== null)` loop of
`scanContent` for one compiled pattern.  `li` is the regex's `lastIndex`
(reset to `0` before the loop).  `exec` on a `g`-flagged regex searches from
`lastIndex` (failing when it is past the end) and sets it to the match end;
a zero-length match additionally advances it by one and re-enters the loop;
an excluded match is skipped; otherwise a finding is pushed and the loop
breaks once `ruleHits` reaches the cap.  `fuel` bounds the iteration count;
`none` means the fuel ran out, which `C3_termination` proves impossible
with `content.length + 2` fuel (the wall-clock ReDoS guards are modelled as
never firing). -/
def patternLoop (maxPerRule : Nat) (rule : CompiledRuleM) (filePath : String)
    (content : List Char) (lineIndex : List Nat) (re : RegexM) :
    Nat → Nat → RuleState → Option RuleState
  | fuel, li, st =>
    match (if li > content.length then none else re.find content li) with
    | none => some st
    | some (s, e) =>
      match fuel with
      | 0 => none
      | fuel + 1 =>
        if e - s = 0 then
          patternLoop maxPerRule rule filePath content lineIndex re fuel (e + 1) st
        else
          let m := (content.drop s).take (e - s)
          let ex := isExcludedRun m st.excl
          if ex.1 then
            patternLoop maxPerRule rule filePath content lineIndex re fuel e
              { st with excl := ex.2 }
          else
            let st' : RuleState :=
              { acc := st.acc ++ [mkFinding rule filePath lineIndex s]
                hits := st.hits + 1
                excl := ex.2 }
            if st'.hits ≥ maxPerRule then some st'
            else patternLoop maxPerRule rule filePath content lineIndex re fuel e st'

/-- The `for (const regex of rule._compiled)` loop: each pattern starts with
`lastIndex = 0`; after a pattern the rule stops once `ruleHits` reached the
cap. -/
def ruleLoop (maxPerRule : Nat) (rule : CompiledRuleM) (filePath : String)
    (content : List Char) (lineIndex : List Nat) :
    List RegexM → RuleState → Option RuleState
  | [], st => some st
  | re :: res, st => do
    let st' ← patternLoop maxPerRule rule filePath content lineIndex re
      (content.length + 2) 0 st
    if st'.hits ≥ maxPerRule then some st'
    else ruleLoop maxPerRule rule filePath content lineIndex res st'

/-- One rule's contribution to `scanContent`: skipped unless the file type
matches; hit counter starts at `0`. -/
def scanRule (maxPerRule : Nat) (rule : CompiledRuleM) (filePath : String)
    (fileType : String) (content : List Char) (lineIndex : List Nat) :
    Option (List Finding) :=
  if isFileTypeMatch rule fileType then
    (ruleLoop maxPerRule rule filePath content lineIndex rule.compiled
      ⟨[], 0, rule.excludeCompiled⟩).map RuleState.acc
  else some []

/-- Modelled from the spec: `SCAN_LIMITS.MAX_FINDINGS_PER_RULE_PER_FILE`
lives in `src/constants.ts`, which is not among the provided sources; the
spec (and the comment in `critical-limits.test.ts`) fix its default at 20. -/
def MAX_FINDINGS_PER_RULE_PER_FILE : Nat := 20

/-- `scanContent` from src/scanner/engine/rule-engine.ts, parametrised by
the per-rule finding cap.  Findings accumulate across rules in rule order. -/
def scanContentWith (maxPerRule : Nat) (content : List Char)
    (filePath : String) (fileType : String) (rules : List CompiledRuleM) :
    Option (List Finding) :=
  let lineIndex := buildLineIndex content
  rules.foldlM
    (fun acc rule => do
      let fs ← scanRule maxPerRule rule filePath fileType content lineIndex
      pure (acc ++ fs))
    []

/-- `scanContent` with the shipped cap. -/
def scanContent (content : List Char) (filePath : String) (fileType : String)
    (rules : List CompiledRuleM) : Option (List Finding) :=
  scanContentWith MAX_FINDINGS_PER_RULE_PER_FILE content filePath fileType rules

/-- A concrete compiled rule, as `loadRulesFromText` builds it from
`patterns: ["connect\\(localhost\\)"]` and `exclude_patterns: ["localhost"]`
(both patterns are escaped literals, so their matchers are literal
searches; the exclude regex is compiled with the `g` flag and starts with
`lastIndex = 0`). -/
def exRule : CompiledRuleM :=
  { id := "DATA_EXFIL_SOCKET"
    category := "data_exfiltration"
    severity := Severity.CRITICAL
    description := some "Direct socket connection to external server"
    remediation := none
    file_types := ["python"]
    compiled := [litRegex "connect(localhost)"]
    excludeCompiled := [(litRegex "localhost", 0)] }

/-- A file body with two identical matches of `exRule`, both containing the
excluded substring `localhost`. -/
def exContent : List Char := "connect(localhost) connect(localhost)".data

/-- The finding `scanContent` actually emits on `exContent`: the second
occurrence, no longer suppressed because the exclude regex's `lastIndex`
was left at 17 by the test on the first occurrence. -/
def exFinding : Finding :=
  { ruleId := "DATA_EXFIL_SOCKET"
    severity := Severity.CRITICAL
    message := "Direct socket connection to external server"
    file := "a.py"
    line := some 1
    category := some "data_exfiltration"
    remediation := none
    source := some FindingSource.signature }

end Engine

namespace Confidence

/-- `filterByConfidence` from src/scanner/confidence.ts:
`findings.filter((f) => (f.confidence ?? 1.0) >= minConfidence)`. -/
def filterByConfidence (findings : List Finding) (minConfidence : ℚ) :
    List Finding :=
  findings.filter (fun f => decide (minConfidence ≤ f.confidence.getD 1))

/-- A finding that never passed through confidence attachment. -/
def noConfFinding : Finding :=
  { ruleId := "R", severity := Severity.LOW, message := "m", file := "f" }

end Confidence

namespace Cache

/-- `CacheEntry` from src/scanner/cache.ts, with `timestamp` (a `Date.now()`
reading in ms) as `Nat`. -/
structure CacheEntry where
  hash : String
  findings : List Finding
  timestamp : Nat
  ruleVersion : String
deriving DecidableEq, Repr

/-- The `cache : Map<string, CacheEntry>`: a JS `Map` is an
insertion-ordered association list with unique keys; `set` updates an
existing key in place and appends a new one. -/
def mapSet (m : List (String × CacheEntry)) (k : String) (v : CacheEntry) :
    List (String × CacheEntry) :=
  if k ∈ m.map Prod.fst then
    m.map (fun p => if p.1 = k then (k, v) else p)
  else m ++ [(k, v)]

/-- `estimateCacheSize` from src/scanner/cache.ts: 92 bytes of overhead per
entry plus 500 per finding. -/
def estimateCacheSize (m : List (String × CacheEntry)) : Nat :=
  m.foldl (fun acc p => acc + (92 + p.2.findings.length * 500)) 0

/-- The scan of `evictOldestEntry` for the entry with the strictly smallest
timestamp (`entry.timestamp < oldestTimestamp`, starting from `Infinity`,
iterating in map order — so the earliest-inserted minimal entry wins). -/
def findOldest (m : List (String × CacheEntry)) :
    Option (String × CacheEntry) :=
  m.foldl
    (fun best p =>
      match best with
      | none => some p
      | some b => if p.2.timestamp < b.2.timestamp then some p else best)
    none

/-- `evictOldestEntry` from src/scanner/cache.ts.  Note `if (oldestPath)`:
a JS truthiness test, so an oldest entry keyed by the empty string is not
deleted. -/
def evictOldestEntry (m : List (String × CacheEntry)) :
    List (String × CacheEntry) :=
  if m.length = 0 then m
  else
    match findOldest m with
    | none => m
    | some p => if p.1 = "" then m else m.filter (fun q => q.1 != p.1)

/-- `doSetCachedFindings` from src/scanner/cache.ts: one eviction if the
entry count has reached `maxEntries`, then one eviction if the size
estimate has reached `maxSizeBytes`, then insert.  `hash` is the computed
file hash and `now` the `Date.now()` reading. -/
def doSetCachedFindings (m : List (String × CacheEntry)) (filePath : String)
    (findings : List Finding) (hash : String) (now : Nat)
    (maxEntries maxSizeBytes : Nat) (ruleVersion : String) :
    List (String × CacheEntry) :=
  let m1 := if m.length ≥ maxEntries then evictOldestEntry m else m
  let m2 := if estimateCacheSize m1 ≥ maxSizeBytes then evictOldestEntry m1
    else m1
  mapSet m2 filePath ⟨hash, findings, now, ruleVersion⟩

/-- A concrete cache: three entries of one finding each (592 estimated
bytes per entry). -/
def exCache : List (String × CacheEntry) :=
  [("/a", ⟨"ha", [Confidence.noConfFinding], 1, "1.0"⟩),
   ("/b", ⟨"hb", [Confidence.noConfFinding], 2, "1.0"⟩),
   ("/c", ⟨"hc", [Confidence.noConfFinding], 3, "1.0"⟩)]

end Cache

namespace McpCollect

/-- A JS string as its sequence of UTF-16 code units, the representation on
which both `String.prototype.slice` (code-unit indices) and
`TextEncoder().encode(...).byteLength` are exact. -/
abbrev JStr := List Nat

/-- UTF-8 byte length of a UTF-16 code-unit sequence as `TextEncoder`
produces it: 1 byte below `0x80`, 2 below `0x800`, 4 for a surrogate pair,
3 for anything else (lone surrogates become the 3-byte `U+FFFD`). -/
def utf8Len : JStr → Nat
  | [] => 0
  | u :: rest =>
    if u < 0x80 then 1 + utf8Len rest
    else if u < 0x800 then 2 + utf8Len rest
    else if 0xD800 ≤ u ∧ u < 0xDC00 then
      match rest with
      | [] => 3
      | v :: rest' =>
        if 0xDC00 ≤ v ∧ v < 0xE000 then 4 + utf8Len rest'
        else 3 + utf8Len (v :: rest')
    else 3 + utf8Len rest

/-- `pickTextContent` from the MCP collector: gather the string `text`
fields of `contents[]`, join them with `"\n"`, and if the UTF-8 byte length
exceeds `maxBytes`, store `joined.slice(0, Math.max(0, maxBytes))` — a
UTF-16 code-unit prefix. -/
def pickTextContent (contents : List (Option JStr)) (maxBytes : Int) :
    Option JStr :=
  let parts := contents.filterMap id
  if parts.isEmpty then none
  else
    let joined := List.intercalate [10] parts
    if (utf8Len joined : Int) > maxBytes then
      some (joined.take (max 0 maxBytes).toNat)
    else some joined

end McpCollect

namespace Fs

/-- `path.replace(/\0/g, "")` from `sanitizePath` (src/utils/fs.ts). -/
def removeNulls (p : List Char) : List Char :=
  p.filter (fun c => c != '\x00')

/-- Split a path on `/`, as Node's `path.posix` segment scan does
(`"/a//b"` gives `["", "a", "", "b"]`). -/
def splitSlash : List Char → List (List Char)
  | [] => [[]]
  | c :: rest =>
    if c = '/' then [] :: splitSlash rest
    else
      match splitSlash rest with
      | s :: ss => (c :: s) :: ss
      | [] => [[c]]

/-- Join segments with `/`. -/
def joinSlash : List (List Char) → List Char
  | [] => []
  | [s] => s
  | s :: ss => s ++ '/' :: joinSlash ss

/-- How a `..` segment transforms the kept-segment stack in Node's
`normalizeString`: pop the last kept segment; but if the kept segments
already end in `..` (possible only with `allowAboveRoot`) or there is
nothing to pop, keep the `..` exactly when `allowAboveRoot` (relative
paths) and drop it otherwise (absolute paths, as in `resolve`). -/
def popDotDot (allowAboveRoot : Bool) (seg : List Char)
    (stack : List (List Char)) : List (List Char) :=
  match stack with
  | top :: stack' =>
    if top = ['.', '.'] then
      if allowAboveRoot then seg :: stack else stack
    else stack'
  | [] => if allowAboveRoot then [seg] else []

/-- The segment resolution of Node's `normalizeString(path,
allowAboveRoot)`: drop empty and `.` segments; `..` pops via `popDotDot`;
anything else is kept.  `stack` holds the kept segments in reverse. -/
def normStack (allowAboveRoot : Bool) :
    List (List Char) → List (List Char) → List (List Char)
  | stack, [] => stack.reverse
  | stack, seg :: rest =>
    if seg = [] ∨ seg = ['.'] then normStack allowAboveRoot stack rest
    else if seg = ['.', '.'] then
      normStack allowAboveRoot (popDotDot allowAboveRoot seg stack) rest
    else normStack allowAboveRoot (seg :: stack) rest

/-- Node `path.posix.normalize`: absolute paths resolve segments with
`allowAboveRoot = false`, relative ones with `true`; an empty resolution
yields `/` or `.`; a trailing separator is preserved. -/
def normalize (p : List Char) : List Char :=
  if p = [] then ['.']
  else if p.head? = some '/' then
    if joinSlash (normStack false [] (splitSlash p)) = [] then ['/']
    else if p.getLast? = some '/' then
      '/' :: (joinSlash (normStack false [] (splitSlash p)) ++ ['/'])
    else '/' :: joinSlash (normStack false [] (splitSlash p))
  else
    if joinSlash (normStack true [] (splitSlash p)) = [] then
      if p.getLast? = some '/' then ['.', '/'] else ['.']
    else if p.getLast? = some '/' then
      joinSlash (normStack true [] (splitSlash p)) ++ ['/']
    else joinSlash (normStack true [] (splitSlash p))

/-- Node `path.posix.resolve` with a single argument and an absolute
working directory `cwd`: prepend `cwd` unless the path is absolute, then
normalize with `allowAboveRoot = false` and prepend `/`. -/
def resolve1 (cwd p : List Char) : List Char :=
  let r := if p.head? = some '/' then p else cwd ++ '/' :: p
  '/' :: joinSlash (normStack false [] (splitSlash r))

/-- `sanitizePath` from src/utils/fs.ts: strip null bytes; if the result
starts with `~/` or is exactly `~`, replace the leading `~` with the home
directory; then `resolve(normalize(cleaned))`. -/
def sanitizePath (homedir cwd : List Char) (p : List Char) : List Char :=
  let cleaned := removeNulls p
  let cleaned :=
    if cleaned.take 2 = ['~', '/'] ∨ cleaned = ['~'] then
      homedir ++ cleaned.drop 1
    else cleaned
  resolve1 cwd (normalize cleaned)

/-- A path of the canonical absolute form `resolve` produces: `/`, or `/`
followed by `/`-joined segments that are nonempty, not `.` or `..`, and
slash-free. -/
def goodSeg (s : List Char) : Prop :=
  s ≠ [] ∧ s ≠ ['.'] ∧ s ≠ ['.', '.'] ∧ '/' ∉ s

/-- Canonical absolute paths. -/
def isCanonicalAbs (q : List Char) : Prop :=
  q = ['/'] ∨ ∃ segs, segs ≠ [] ∧ (∀ s ∈ segs, goodSeg s) ∧
    q = '/' :: joinSlash segs

end Fs

namespace Fix

/-- JavaScript `\\s` / `trimStart` whitespace: WhiteSpace plus
LineTerminator code points. -/
def jsWhitespace (c : Char) : Bool :=
  c ∈ [' ', '\t', '\n', '\x0b', '\x0c', '\r', '\u00a0', '\u1680',
    '\u2000', '\u2001', '\u2002', '\u2003', '\u2004', '\u2005', '\u2006',
    '\u2007', '\u2008', '\u2009', '\u200a', '\u2028', '\u2029', '\u202f',
    '\u205f', '\u3000', '\ufeff']

/-- JavaScript line terminators (the code points `.` does not match). -/
def isLineTerm (c : Char) : Bool :=
  c ∈ ['\n', '\r', '\u2028', '\u2029']

/-- `CommentStyle` from src/scanner/fix.ts. -/
inductive CommentStyle where
  | prefixStyle (value : List Char)
  | wrap (start stop : List Char)
deriving DecidableEq, Repr

/-- Node `path.extname` on a posix path: the part of the basename from its
last `.` on, empty when there is no dot past the first character
(`.bashrc`, `..`, `a`). -/
def extname (p : List Char) : List Char :=
  let base := (p.reverse.takeWhile (fun c => c != '/')).reverse
  if base = ['.', '.'] then []
  else
    let afterDot := base.reverse.takeWhile (fun c => c != '.')
    if afterDot.length = base.length then []
    else if afterDot.length + 1 = base.length then []
    else base.drop (base.length - afterDot.length - 1)

/-- `EXT_COMMENT_STYLE` from src/scanner/fix.ts. -/
def extCommentStyle : List (List Char × Option CommentStyle) :=
  [(".md".data, some (CommentStyle.wrap "<!-- ".data " -->".data)),
   (".mdx".data, some (CommentStyle.wrap "<!-- ".data " -->".data)),
   (".txt".data, some (CommentStyle.prefixStyle "#".data)),
   (".rst".data, some (CommentStyle.prefixStyle "#".data)),
   (".yaml".data, some (CommentStyle.prefixStyle "#".data)),
   (".yml".data, some (CommentStyle.prefixStyle "#".data)),
   (".toml".data, some (CommentStyle.prefixStyle "#".data)),
   (".ini".data, some (CommentStyle.prefixStyle "#".data)),
   (".cfg".data, some (CommentStyle.prefixStyle "#".data)),
   (".conf".data, some (CommentStyle.prefixStyle "#".data)),
   (".py".data, some (CommentStyle.prefixStyle "#".data)),
   (".sh".data, some (CommentStyle.prefixStyle "#".data)),
   (".bash".data, some (CommentStyle.prefixStyle "#".data)),
   (".js".data, some (CommentStyle.prefixStyle "//".data)),
   (".ts".data, some (CommentStyle.prefixStyle "//".data)),
   (".mjs".data, some (CommentStyle.prefixStyle "//".data)),
   (".cjs".data, some (CommentStyle.prefixStyle "//".data)),
   (".json".data, none)]

/-- `getCommentStyle` from src/scanner/fix.ts (`extname(...).toLowerCase()`
then table lookup, `null` when absent). -/
def getCommentStyle (filePath : String) : Option CommentStyle :=
  match extCommentStyle.lookup ((extname filePath.data).map Char.toLower) with
  | some v => v
  | none => none

/-- `isAlreadyCommented` from src/scanner/fix.ts: `trimStart` then
`startsWith(value)` for a prefix style, `startsWith("<!--") &&
endsWith("-->")` for the wrap style. -/
def isAlreadyCommented (line : List Char) (style : CommentStyle) : Bool :=
  match style with
  | CommentStyle.prefixStyle v => v.isPrefixOf (line.dropWhile jsWhitespace)
  | CommentStyle.wrap _ _ =>
      "<!--".data.isPrefixOf (line.dropWhile jsWhitespace) &&
        "-->".data.isSuffixOf (line.dropWhile jsWhitespace)

/-- `commentLine` from src/scanner/fix.ts.  The match
`line.match(/^(\\s*)(.*)$/)` succeeds exactly when the part of the line
after its maximal whitespace prefix contains no line terminator (`.`
matches neither `\\r` nor `\\n`); on failure `indent` is empty and `content`
the whole line.  Blank content (`content.trim().length === 0`) leaves the
line unchanged. -/
def commentLine (line : List Char) (style : CommentStyle) : List Char :=
  let rest := line.dropWhile jsWhitespace
  let indent := if rest.any isLineTerm then [] else line.takeWhile jsWhitespace
  let content := if rest.any isLineTerm then line else rest
  match style with
  | CommentStyle.prefixStyle v =>
      if content.all jsWhitespace then line
      else indent ++ v ++ ' ' :: content
  | CommentStyle.wrap s e =>
      if content.all jsWhitespace then line
      else indent ++ s ++ content ++ e

/-- `content.split(/\\r?\\n/)`: a separator is `\\n`, optionally preceded by
`\\r` (leftmost-first, so a `\\r` directly before `\\n` always joins the
separator); a `\\r` not followed by `\\n` stays inside its line. -/
def splitLines : List Char → List (List Char)
  | [] => [[]]
  | a :: rest =>
    if a = '\n' then [] :: splitLines rest
    else if a = '\r' ∧ rest.head? = some '\n' then [] :: splitLines rest.tail
    else
      match splitLines rest with
      | s :: ss => (a :: s) :: ss
      | [] => [[a]]
termination_by c => c.length
decreasing_by
  · simp
  · simp [List.length_tail]
    omega
  · simp

/-- `content.includes("\\r\\n")`. -/
def hasCRLF : List Char → Bool
  | [] => false
  | a :: rest => (a == '\r' && rest.head? == some '\n') || hasCRLF rest

/-- `const eol = content.includes("\\r\\n") ? "\\r\\n" : "\\n"`. -/
def eolOf (c : List Char) : List Char :=
  if hasCRLF c then ['\r', '\n'] else ['\n']

/-- `split.join(eol)`. -/
def joinLines (eol : List Char) : List (List Char) → List Char
  | [] => []
  | [l] => l
  | l :: ls => l ++ eol ++ joinLines eol ls

/-- The `for (const lineNumber of lines)` loop of `applyFixes`: 1-based
line numbers; out-of-range and already-commented lines are skipped, a line
`commentLine` does not change is left alone, otherwise the line is
replaced and the file marked changed. -/
def applyLines (style : CommentStyle) : List Nat → List (List Char) →
    List (List Char) × Bool
  | [], split => (split, false)
  | ln :: rest, split =>
    match split.get? (ln - 1) with
    | none => applyLines style rest split
    | some original =>
      if isAlreadyCommented original style then applyLines style rest split
      else if commentLine original style = original then
        applyLines style rest split
      else
        ((applyLines style rest
          (split.set (ln - 1) (commentLine original style))).1, true)

/-- One file of `applyFixes`: split, fix the targeted lines, and when
anything changed re-join with the detected line ending.  Returns the new
content and the `changed` flag (the file is written only when changed). -/
def processFile (style : CommentStyle) (lines : List Nat) (c : List Char) :
    List Char × Bool :=
  let r := applyLines style lines (splitLines c)
  (if r.2 then joinLines (eolOf c) r.1 else c, r.2)

/-- A finding the fix pass applies: has a truthy `line` (so not `0`) and is
not a heuristic finding. -/
def applicable (f : Finding) : Bool :=
  !(f.line == none || f.line == some 0 || f.source == some FindingSource.heuristic)

/-- `byFile.get(file) ?? new Set(); set.add(line); byFile.set(file, set)`:
insertion-ordered map of insertion-ordered duplicate-free line sets. -/
def addToGroup (groups : List (String × List Nat)) (file : String)
    (ln : Nat) : List (String × List Nat) :=
  if groups.any (fun g => g.1 == file) then
    groups.map (fun g =>
      if g.1 = file then (g.1, if ln ∈ g.2 then g.2 else g.2 ++ [ln]) else g)
  else groups ++ [(file, [ln])]

/-- One step of the grouping loop of `applyFixes`: findings without a
truthy `line` (absent or `0`) and heuristic findings are skipped, the rest
are added to their file's line set. -/
def groupStep (groups : List (String × List Nat)) (f : Finding) :
    List (String × List Nat) :=
  match f.line with
  | none => groups
  | some ln =>
    if ln = 0 then groups
    else if f.source == some FindingSource.heuristic then groups
    else addToGroup groups f.file ln

/-- The grouping loop of `applyFixes`. -/
def groupFindings (findings : List Finding) : List (String × List Nat) :=
  findings.foldl groupStep []

/-- The file-system model: path-keyed contents.  `readText` is lookup,
`Bun.write` replaces the stored content (only reachable for files that
were just read, hence present). -/
def fsRead : List (String × List Char) → String → Option (List Char)
  | [], _ => none
  | (k, v) :: rest, f => if k = f then some v else fsRead rest f

/-- Overwrite the content stored for `f`. -/
def fsWrite (fs : List (String × List Char)) (f : String)
    (c : List Char) : List (String × List Char) :=
  fs.map (fun p => if p.1 = f then (f, c) else p)

/-- Processing of one `byFile` group: unsupported type or failed read skip
the file; otherwise fix its lines and write back when changed. -/
def applyGroup (fs : List (String × List Char)) (g : String × List Nat) :
    List (String × List Char) :=
  match getCommentStyle g.1 with
  | none => fs
  | some style =>
    match fsRead fs g.1 with
    | none => fs
    | some content =>
      let r := processFile style g.2 content
      if r.2 then fsWrite fs g.1 r.1 else fs

/-- `applyFixes` from src/scanner/fix.ts over the file-system model. -/
def applyFixesFs (findings : List Finding)
    (fs : List (String × List Char)) : List (String × List Char) :=
  (groupFindings findings).foldl applyGroup fs

/-- A line the fix loop will never touch again: already commented, or left
unchanged by `commentLine`. -/
def lineStable (style : CommentStyle) (l : List Char) : Prop :=
  isAlreadyCommented l style = true ∨ commentLine l style = l

/-- The shape every style in `EXT_COMMENT_STYLE` has: the marker starts
with a non-whitespace character (so `trimStart` stops at it), a wrap start
begins with `<!--` and a wrap end carries `-->`, and no marker contains a
newline. -/
def goodStyle : CommentStyle → Prop
  | CommentStyle.prefixStyle v =>
      (match v with
        | [] => False
        | a :: _ => jsWhitespace a = false) ∧ '\n' ∉ v
  | CommentStyle.wrap s e =>
      (match s with
        | [] => False
        | a :: _ => jsWhitespace a = false) ∧
      "<!--".data <+: s ∧ "-->".data <:+ e ∧ '\n' ∉ s ∧ '\n' ∉ e

end Fix

namespace Mcp

/-- An error thrown inside the `fn` of `retryWithBackoff`
(src/scanner/mcp/client-http.ts): an `McpRpcError` with its optional
numeric `code`, or any other exception (`instanceof McpRpcError` fails). -/
inductive RpcError where
  | mcp (code : Option Int)
  | other
deriving DecidableEq, Repr

/-- The don't-retry test of `retryWithBackoff`:
`error instanceof McpRpcError && (error.code === -32601 || (error.code &&
error.code >= 400 && error.code < 500))`.  A missing code and the falsy
code `0` fail the `error.code &&` guard. -/
def isNoRetry : RpcError → Bool
  | RpcError.mcp (some c) =>
      c == -32601 || (!(c == 0) && (decide (400 ≤ c) && decide (c < 500)))
  | _ => false

/-- The retry loop of `retryWithBackoff`, with the outcome of the k-th
underlying call given by `outcomes k` and `Math.random()` of the k-th
backoff given by `jitterRand k`.  Returns the final result, the number of
underlying calls made, and the list of waited delays
(`delay + jitter = base * 2^attempt + rand * 0.3 * (base * 2^attempt)`). -/
def retryGo {α : Type} (outcomes : Nat → Except RpcError α) (base : ℚ)
    (jitterRand : Nat → ℚ) : Nat → Nat → Except RpcError α × Nat × List ℚ
  | remaining, attempt =>
    match outcomes attempt with
    | Except.ok v => (Except.ok v, 1, [])
    | Except.error e =>
      if isNoRetry e then (Except.error e, 1, [])
      else
        match remaining with
        | 0 => (Except.error e, 1, [])
        | r + 1 =>
          let delay := base * 2 ^ attempt
          let jitter := jitterRand attempt * (3 / 10) * delay
          let rest := retryGo outcomes base jitterRand r (attempt + 1)
          (rest.1, rest.2.1 + 1, (delay + jitter) :: rest.2.2)

/-- `retryWithBackoff` from src/scanner/mcp/client-http.ts: attempts
`0 .. maxRetries`. -/
def retryWithBackoff {α : Type} (outcomes : Nat → Except RpcError α)
    (maxRetries : Nat) (base : ℚ) (jitterRand : Nat → ℚ) :
    Except RpcError α × Nat × List ℚ :=
  retryGo outcomes base jitterRand maxRetries 0

end Mcp

/-! ## Theorems -/

namespace Meta

theorem dedupGo_congr {a b : List String} (h : ∀ x, x ∈ a ↔ x ∈ b) :
    ∀ fs, dedupGo a fs = dedupGo b fs := by
  intro fs
  induction fs generalizing a b with
  | nil => simp [dedupGo]
  | cons f fs ih =>
    simp only [dedupGo]
    by_cases hf : dedupKey f ∈ a
    · rw [if_pos hf, if_pos ((h _).mp hf), ih h]
    · rw [if_neg hf, if_neg (fun hb => hf ((h _).mpr hb))]
      have : ∀ x, x ∈ dedupKey f :: a ↔ x ∈ dedupKey f :: b := by
        intro x; simp [h x]
      rw [ih this]

theorem foldl_insertSeen_spec (fs : List Finding) :
    ∀ seen, (fs.foldl insertSeen seen).map Prod.snd =
      seen.map Prod.snd ++ dedupGo (seen.map Prod.fst) fs := by
  induction fs with
  | nil => intro seen; simp [dedupGo]
  | cons f fs ih =>
    intro seen
    simp only [List.foldl_cons, dedupGo]
    by_cases hf : dedupKey f ∈ seen.map Prod.fst
    · rw [if_pos hf]
      simpa [insertSeen, hf] using ih seen
    · rw [if_neg hf]
      have := ih (seen ++ [(dedupKey f, f)])
      simp only [insertSeen, if_neg hf] at this ⊢
      rw [this]
      have hcongr : dedupGo ((seen ++ [(dedupKey f, f)]).map Prod.fst) fs =
          dedupGo (dedupKey f :: seen.map Prod.fst) fs := by
        apply dedupGo_congr
        intro x; simp [or_comm]
      rw [hcongr]
      simp

theorem applyMetaAnalyzer_eq_dedupGo (fs : List Finding) :
    applyMetaAnalyzer fs = dedupGo [] fs := by
  simpa using foldl_insertSeen_spec fs []

theorem dedupGo_sublist (ks : List String) (fs : List Finding) :
    (dedupGo ks fs).Sublist fs := by
  induction fs generalizing ks with
  | nil => simp [dedupGo]
  | cons f fs ih =>
    simp only [dedupGo]
    by_cases hf : dedupKey f ∈ ks
    · rw [if_pos hf]; exact (ih ks).cons f
    · rw [if_neg hf]; exact (ih _).cons₂ f

theorem dedupGo_keys_fresh (ks : List String) (fs : List Finding) :
    ∀ g ∈ dedupGo ks fs, dedupKey g ∉ ks := by
  induction fs generalizing ks with
  | nil => simp [dedupGo]
  | cons f fs ih =>
    simp only [dedupGo]
    by_cases hf : dedupKey f ∈ ks
    · rw [if_pos hf]; exact ih ks
    · rw [if_neg hf]
      intro g hg
      rcases List.mem_cons.mp hg with rfl | hg'
      · exact hf
      · have := ih (dedupKey f :: ks) g hg'
        intro hk; exact this (List.mem_cons_of_mem _ hk)

theorem dedupGo_pairwise (ks : List String) (fs : List Finding) :
    (dedupGo ks fs).Pairwise (fun g h => dedupKey g ≠ dedupKey h) := by
  induction fs generalizing ks with
  | nil => simp [dedupGo]
  | cons f fs ih =>
    simp only [dedupGo]
    by_cases hf : dedupKey f ∈ ks
    · rw [if_pos hf]; exact ih ks
    · rw [if_neg hf]
      refine List.Pairwise.cons ?_ (ih _)
      intro g hg heq
      exact dedupGo_keys_fresh _ _ g hg (heq ▸ List.mem_cons_self _ _)

theorem dedupGo_covers (ks : List String) (fs : List Finding) :
    ∀ f ∈ fs, dedupKey f ∈ ks ∨
      ∃ g ∈ dedupGo ks fs, dedupKey g = dedupKey f := by
  induction fs generalizing ks with
  | nil => simp
  | cons f fs ih =>
    intro x hx
    simp only [dedupGo]
    rcases List.mem_cons.mp hx with rfl | hx'
    · by_cases hf : dedupKey x ∈ ks
      · exact Or.inl hf
      · right; rw [if_neg hf]; exact ⟨x, List.mem_cons_self _ _, rfl⟩
    · by_cases hf : dedupKey f ∈ ks
      · rw [if_pos hf]; exact ih ks x hx'
      · rw [if_neg hf]
        rcases ih (dedupKey f :: ks) x hx' with hk | ⟨g, hg, hgk⟩
        · rcases List.mem_cons.mp hk with heq | hk'
          · right; exact ⟨f, List.mem_cons_self _ _, heq.symm⟩
          · exact Or.inl hk'
        · right; exact ⟨g, List.mem_cons_of_mem _ hg, hgk⟩

theorem dedupGo_fixed (ks : List String) (fs : List Finding)
    (hfresh : ∀ f ∈ fs, dedupKey f ∉ ks)
    (hpw : fs.Pairwise (fun g h => dedupKey g ≠ dedupKey h)) :
    dedupGo ks fs = fs := by
  induction fs generalizing ks with
  | nil => simp [dedupGo]
  | cons f fs ih =>
    simp only [dedupGo]
    rw [if_neg (hfresh f (List.mem_cons_self _ _))]
    congr 1
    apply ih
    · intro g hg hk
      rcases List.mem_cons.mp hk with heq | hk'
      · exact (List.pairwise_cons.mp hpw).1 g hg heq.symm
      · exact hfresh g (List.mem_cons_of_mem _ hg) hk'
    · exact (List.pairwise_cons.mp hpw).2

end Meta

/-- C4: `applyMetaAnalyzer` returns a sublist of its input, is idempotent,
every input finding is represented by an output finding with the same dedup
key, output keys are pairwise distinct, and the key is a function of the
`(ruleId, file, line, message)` quadruple — so findings sharing that
quadruple collapse to a single output finding. -/
theorem C4_meta_dedup (F : List Finding) :
    (Meta.applyMetaAnalyzer F).Sublist F ∧
    Meta.applyMetaAnalyzer (Meta.applyMetaAnalyzer F) = Meta.applyMetaAnalyzer F ∧
    (∀ f ∈ F, ∃ g ∈ Meta.applyMetaAnalyzer F, Meta.dedupKey g = Meta.dedupKey f) ∧
    (Meta.applyMetaAnalyzer F).Pairwise (fun g h => Meta.dedupKey g ≠ Meta.dedupKey h) ∧
    (∀ f g : Finding, f.ruleId = g.ruleId → f.file = g.file → f.line = g.line →
      f.message = g.message → Meta.dedupKey f = Meta.dedupKey g) := by
  have hchar := Meta.applyMetaAnalyzer_eq_dedupGo F
  refine ⟨?_, ?_, ?_, ?_, ?_⟩
  · rw [hchar]; exact Meta.dedupGo_sublist [] F
  · rw [hchar, Meta.applyMetaAnalyzer_eq_dedupGo]
    exact Meta.dedupGo_fixed [] _ (by simp) (Meta.dedupGo_pairwise [] F)
  · intro f hf
    rw [hchar]
    rcases Meta.dedupGo_covers [] F f hf with h | h
    · simp at h
    · exact h
  · rw [hchar]; exact Meta.dedupGo_pairwise [] F
  · intro f g h1 h2 h3 h4
    simp [Meta.dedupKey, h1, h2, h3, h4]

namespace Engine

theorem litFindGo_sound (pat c : List Char) (fuel i s e : Nat)
    (h : litFindGo pat c fuel i = some (s, e)) :
    i ≤ s ∧ s ≤ e ∧ e ≤ c.length := by
  induction fuel generalizing i with
  | zero => simp [litFindGo] at h
  | succ fuel ih =>
    rw [litFindGo] at h
    split at h
    · simp at h
    · split at h
      · simp only [Option.some.injEq, Prod.mk.injEq] at h
        obtain ⟨rfl, rfl⟩ := h
        omega
      · have := ih (i + 1) h
        omega

theorem litFind_wf (pat : String) : RegexWF (litRegex pat) := by
  intro c i s e h
  exact litFindGo_sound pat.data c (c.length + 2) i s e h

theorem patternLoop_ne_none {re : RegexM} (hwf : RegexWF re)
    (maxPerRule : Nat) (rule : CompiledRuleM) (filePath : String)
    (content : List Char) (lineIndex : List Nat) :
    ∀ fuel li st, content.length + 2 ≤ fuel + li →
      patternLoop maxPerRule rule filePath content lineIndex re fuel li st ≠
        none := by
  intro fuel
  induction fuel with
  | zero =>
    intro li st h
    rw [patternLoop]
    have hli : li > content.length := by omega
    simp [hli]
  | succ fuel ih =>
    intro li st h
    rw [patternLoop]
    by_cases hli : li > content.length
    · simp [hli]
    · simp only [if_neg hli]
      cases hfind : re.find content li with
      | none => simp
      | some p =>
        obtain ⟨s, e⟩ := p
        have hb := hwf content li s e hfind
        simp only
        by_cases hz : e - s = 0
        · rw [if_pos hz]
          exact ih (e + 1) st (by omega)
        · rw [if_neg hz]
          by_cases hex : (isExcludedRun ((content.drop s).take (e - s)) st.excl).1
          · rw [if_pos hex]
            exact ih e _ (by omega)
          · rw [if_neg hex]
            by_cases hcap : st.hits + 1 ≥ maxPerRule
            · simp [hcap]
            · simp only [ge_iff_le, if_neg hcap]
              exact ih e _ (by omega)

theorem isExcludedRun_length (m : List Char) :
    ∀ ex, ((isExcludedRun m ex).2).length = ex.length := by
  intro ex
  induction ex with
  | nil => simp [isExcludedRun]
  | cons p rest ih =>
    obtain ⟨re, li⟩ := p
    rw [isExcludedRun]
    by_cases ht : (jsTest re m li).1
    · simp [ht]
    · simp [ht, ih]

theorem patternLoop_spec {maxPerRule : Nat} {rule : CompiledRuleM}
    {filePath : String} {content : List Char} {lineIndex : List Nat}
    {re : RegexM} :
    ∀ fuel li st st',
      patternLoop maxPerRule rule filePath content lineIndex re fuel li st =
        some st' →
      ∃ new, st'.acc = st.acc ++ new ∧ st'.hits = st.hits + new.length ∧
        (∀ f ∈ new, f.ruleId = rule.id) ∧
        (st.hits < maxPerRule → st'.hits ≤ maxPerRule) ∧
        st'.excl.length = st.excl.length := by
  intro fuel
  induction fuel with
  | zero =>
    intro li st st' h
    rw [patternLoop] at h
    split at h
    · simp only [Option.some.injEq] at h
      subst h
      exact ⟨[], by simp, by simp, by simp, fun h => by omega, rfl⟩
    · exact absurd h (by simp)
  | succ fuel ih =>
    intro li st st' h
    rw [patternLoop] at h
    split at h
    · simp only [Option.some.injEq] at h
      subst h
      exact ⟨[], by simp, by simp, by simp, fun h => by omega, rfl⟩
    · rename_i s e heq
      simp only at h
      by_cases hz : e - s = 0
      · rw [if_pos hz] at h
        exact ih (e + 1) st st' h
      · rw [if_neg hz] at h
        by_cases hex :
            (isExcludedRun ((content.drop s).take (e - s)) st.excl).1
        · rw [if_pos hex] at h
          obtain ⟨new, h1, h2, h3, h4, h5⟩ := ih e _ st' h
          refine ⟨new, h1, h2, h3, h4, ?_⟩
          rw [h5]
          exact isExcludedRun_length _ _
        · rw [if_neg hex] at h
          by_cases hcap : st.hits + 1 ≥ maxPerRule
          · simp only [ge_iff_le, if_pos hcap, Option.some.injEq] at h
            subst h
            refine ⟨[mkFinding rule filePath lineIndex s], by simp, by simp,
              ?_, fun hlt => by show st.hits + 1 ≤ maxPerRule; omega,
              isExcludedRun_length _ _⟩
            intro f hf
            simp at hf
            subst hf
            rfl
          · simp only [ge_iff_le, if_neg hcap] at h
            obtain ⟨new, h1, h2, h3, h4, h5⟩ := ih e _ st' h
            refine ⟨mkFinding rule filePath lineIndex s :: new, ?_, ?_, ?_,
              fun hlt => h4 (by show st.hits + 1 < maxPerRule; omega), ?_⟩
            · simp only at h1
              rw [h1]
              simp
            · simp only at h2
              rw [h2]
              simp
              omega
            · intro f hf
              rcases List.mem_cons.mp hf with rfl | hf'
              · rfl
              · exact h3 f hf'
            · rw [h5]
              exact isExcludedRun_length _ _

theorem ruleLoop_ne_none {maxPerRule : Nat} {rule : CompiledRuleM}
    {filePath : String} {content : List Char} {lineIndex : List Nat}
    (hwf : ∀ re ∈ rule.compiled, RegexWF re) :
    ∀ res, (∀ re ∈ res, re ∈ rule.compiled) → ∀ st,
      ruleLoop maxPerRule rule filePath content lineIndex res st ≠ none := by
  intro res
  induction res with
  | nil => intro _ st; simp [ruleLoop]
  | cons re res ih =>
    intro hsub st
    rw [ruleLoop]
    cases hpat : patternLoop maxPerRule rule filePath content lineIndex re
        (content.length + 2) 0 st with
    | none =>
      exact absurd hpat
        (patternLoop_ne_none (hwf re (hsub re (List.mem_cons_self _ _)))
          maxPerRule rule filePath content lineIndex _ 0 st (by omega))
    | some st' =>
      simp only [hpat, Option.bind_eq_bind, Option.some_bind]
      by_cases hcap : st'.hits ≥ maxPerRule
      · simp [hcap]
      · simp only [ge_iff_le, if_neg hcap]
        exact ih (fun r hr => hsub r (List.mem_cons_of_mem _ hr)) st'

theorem ruleLoop_spec {maxPerRule : Nat} {rule : CompiledRuleM}
    {filePath : String} {content : List Char} {lineIndex : List Nat} :
    ∀ res st st',
      ruleLoop maxPerRule rule filePath content lineIndex res st = some st' →
      st.hits < maxPerRule →
      ∃ new, st'.acc = st.acc ++ new ∧ st'.hits = st.hits + new.length ∧
        (∀ f ∈ new, f.ruleId = rule.id) ∧ st'.hits ≤ maxPerRule := by
  intro res
  induction res with
  | nil =>
    intro st st' h hlt
    simp only [ruleLoop, Option.some.injEq] at h
    subst h
    exact ⟨[], by simp, by simp, by simp, by omega⟩
  | cons re res ih =>
    intro st st' h hlt
    rw [ruleLoop] at h
    cases hpat : patternLoop maxPerRule rule filePath content lineIndex re
        (content.length + 2) 0 st with
    | none => simp [hpat] at h
    | some stm =>
      simp only [hpat, Option.bind_eq_bind, Option.some_bind] at h
      obtain ⟨new1, p1, p2, p3, p4, _⟩ :=
        patternLoop_spec (content.length + 2) 0 st stm hpat
      by_cases hcap : stm.hits ≥ maxPerRule
      · simp only [ge_iff_le, hcap, if_pos, Option.some.injEq] at h
        subst h
        exact ⟨new1, p1, p2, p3, p4 hlt⟩
      · simp only [ge_iff_le, if_neg hcap] at h
        obtain ⟨new2, q1, q2, q3, q4⟩ := ih stm st' h (by omega)
        refine ⟨new1 ++ new2, ?_, ?_, ?_, q4⟩
        · rw [q1, p1, List.append_assoc]
        · rw [q2, p2]
          simp
          omega
        · intro f hf
          rcases List.mem_append.mp hf with hf' | hf'
          · exact p3 f hf'
          · exact q3 f hf'

theorem scanRule_ne_none {maxPerRule : Nat} {rule : CompiledRuleM}
    {filePath fileType : String} {content : List Char} {lineIndex : List Nat}
    (hwf : ∀ re ∈ rule.compiled, RegexWF re) :
    scanRule maxPerRule rule filePath fileType content lineIndex ≠ none := by
  rw [scanRule]
  by_cases hm : isFileTypeMatch rule fileType
  · simp only [if_pos hm]
    intro hcontra
    rcases Option.map_eq_none'.mp hcontra with hnone
    exact ruleLoop_ne_none hwf rule.compiled (fun _ h => h) _ hnone
  · simp [hm]

theorem scanRule_spec {maxPerRule : Nat} {rule : CompiledRuleM}
    {filePath fileType : String} {content : List Char} {lineIndex : List Nat}
    {fs : List Finding} (hmax : 0 < maxPerRule)
    (h : scanRule maxPerRule rule filePath fileType content lineIndex =
      some fs) :
    fs.length ≤ maxPerRule ∧ ∀ f ∈ fs, f.ruleId = rule.id := by
  rw [scanRule] at h
  by_cases hm : isFileTypeMatch rule fileType
  · rw [if_pos hm] at h
    cases hrl : ruleLoop maxPerRule rule filePath content lineIndex
        rule.compiled ⟨[], 0, rule.excludeCompiled⟩ with
    | none => simp [hrl] at h
    | some st' =>
      rw [hrl] at h
      simp only [Option.map_some', Option.some.injEq] at h
      subst h
      obtain ⟨new, h1, h2, h3, h4⟩ :=
        ruleLoop_spec rule.compiled _ st' hrl (by simpa using hmax)
      simp only at h1 h2
      constructor
      · rw [h1]
        simp
        omega
      · rw [h1]
        simpa using h3
  · rw [if_neg hm] at h
    simp only [Option.some.injEq] at h
    subst h
    simp

theorem scanContentWith_foldlM_count {maxPerRule : Nat}
    {filePath fileType : String} {content : List Char} {lineIndex : List Nat}
    (hmax : 0 < maxPerRule) (r : String) :
    ∀ (rules : List CompiledRuleM) (acc F : List Finding),
      rules.foldlM
        (fun acc rule => do
          let fs ← scanRule maxPerRule rule filePath fileType content lineIndex
          pure (acc ++ fs)) acc = some F →
      F.countP (fun f => f.ruleId == r) ≤
        acc.countP (fun f => f.ruleId == r) +
          maxPerRule * rules.countP (fun ru => ru.id == r) := by
  intro rules
  induction rules with
  | nil =>
    intro acc F h
    simp only [List.foldlM_nil, Option.pure_def, Option.some.injEq] at h
    subst h
    simp
  | cons rule rules ih =>
    intro acc F h
    rw [List.foldlM_cons] at h
    cases hsr : scanRule maxPerRule rule filePath fileType content lineIndex with
    | none => simp [hsr] at h
    | some fs =>
      simp only [hsr, Option.bind_eq_bind, Option.some_bind,
        Option.pure_def, Option.some_bind] at h
      have hrec := ih (acc ++ fs) F h
      obtain ⟨hlen, hids⟩ := scanRule_spec hmax hsr
      have hfs : fs.countP (fun f => f.ruleId == r) ≤ fs.length :=
        List.countP_le_length _
      rw [List.countP_append] at hrec
      rw [List.countP_cons]
      by_cases hid : rule.id = r
      · simp only [hid, beq_self_eq_true, if_true]
        rw [Nat.mul_add, Nat.mul_one]
        omega
      · have hb : (rule.id == r) = false := beq_false_of_ne hid
        have hfs0 : fs.countP (fun f => f.ruleId == r) = 0 := by
          rw [List.countP_eq_zero]
          intro f hf
          rw [hids f hf, hb]
          simp
        simp only [hb, Bool.false_eq_true, if_false, add_zero]
        omega

theorem scanContentWith_foldlM_ne_none {maxPerRule : Nat}
    {filePath fileType : String} {content : List Char} {lineIndex : List Nat} :
    ∀ (rules : List CompiledRuleM) (acc : List Finding),
      (∀ rule ∈ rules, ∀ re ∈ rule.compiled, RegexWF re) →
      rules.foldlM
        (fun acc rule => do
          let fs ← scanRule maxPerRule rule filePath fileType content lineIndex
          pure (acc ++ fs)) acc ≠ none := by
  intro rules
  induction rules with
  | nil => intro acc _; simp
  | cons rule rules ih =>
    intro acc hwf
    rw [List.foldlM_cons]
    cases hsr : scanRule maxPerRule rule filePath fileType content lineIndex with
    | none =>
      exact absurd hsr (scanRule_ne_none (hwf rule (List.mem_cons_self _ _)))
    | some fs =>
      simp only [hsr, Option.bind_eq_bind, Option.some_bind, Option.pure_def,
        Option.some_bind]
      exact ih (acc ++ fs) (fun r hr => hwf r (List.mem_cons_of_mem _ hr))

end Engine

/-- C1: the claim says every pattern hit whose matched substring matches one
of the rule's exclude patterns is skipped, including repeated identical
matched substrings in the same file.  The code violates this: `isExcluded`
calls `test` on exclude regexes compiled with the `g` flag, whose
`lastIndex` persists between calls, so on the failing input
`"connect(localhost) connect(localhost)"` (rule pattern
`connect\(localhost\)`, exclude pattern `localhost`) the first occurrence
is excluded but the second identical occurrence is emitted — even though
its matched substring matches the exclude pattern (second conjunct). -/
theorem C1_exclude_stateful_lastIndex_failing_input :
    Engine.scanContent Engine.exContent "a.py" "python" [Engine.exRule] =
      some [Engine.exFinding] ∧
    (Engine.litRegex "localhost").find "connect(localhost)".data 0 =
      some (8, 17) := by
  exact ⟨by decide, by decide⟩

/-- C2: `scanContent` emits at most `MAX_FINDINGS_PER_RULE_PER_FILE` (20)
findings per rule per file, counting hits across all of a rule's compiled
patterns together (each occurrence of a rule id in the rule list
contributes at most 20 findings carrying that id). -/
theorem C2_per_rule_finding_cap (content : List Char)
    (filePath fileType : String) (rules : List Engine.CompiledRuleM)
    (F : List Finding) (r : String)
    (h : Engine.scanContent content filePath fileType rules = some F) :
    F.countP (fun f => f.ruleId == r) ≤
      Engine.MAX_FINDINGS_PER_RULE_PER_FILE *
        rules.countP (fun ru => ru.id == r) := by
  rw [Engine.scanContent, Engine.scanContentWith] at h
  have := @Engine.scanContentWith_foldlM_count
    Engine.MAX_FINDINGS_PER_RULE_PER_FILE filePath fileType content
    (Engine.buildLineIndex content) (by decide) r rules [] F h
  simpa using this

/-- Witness for C2 at a concrete input. -/
theorem C2_per_rule_finding_cap_witness :
    [Engine.exFinding].countP
      (fun f => f.ruleId == "DATA_EXFIL_SOCKET") ≤
      Engine.MAX_FINDINGS_PER_RULE_PER_FILE *
        [Engine.exRule].countP (fun ru => ru.id == "DATA_EXFIL_SOCKET") :=
  C2_per_rule_finding_cap Engine.exContent "a.py" "python" [Engine.exRule]
    [Engine.exFinding] "DATA_EXFIL_SOCKET" (by decide)

/-- C3: the per-pattern match loop strictly advances the regex cursor
(zero-length matches advance it by one), so `scanContent` terminates for
every content and rule list whose matchers are well formed: the fuelled
loop never runs out of fuel. -/
theorem C3_scanContent_terminates (content : List Char)
    (filePath fileType : String) (rules : List Engine.CompiledRuleM)
    (hwf : ∀ rule ∈ rules, ∀ re ∈ rule.compiled, Engine.RegexWF re) :
    Engine.scanContent content filePath fileType rules ≠ none ∧
    (∀ re : Engine.RegexM, Engine.RegexWF re → ∀ li s e,
      re.find content li = some (s, e) →
      li < (if e - s = 0 then e + 1 else e)) := by
  constructor
  · rw [Engine.scanContent, Engine.scanContentWith]
    exact Engine.scanContentWith_foldlM_ne_none rules [] hwf
  · intro re hre li s e hfind
    have := hre content li s e hfind
    by_cases hz : e - s = 0
    · rw [if_pos hz]; omega
    · rw [if_neg hz]; omega

namespace Cache

theorem findOldest_go (m : List (String × CacheEntry)) :
    ∀ b : String × CacheEntry,
      ∃ c, m.foldl
          (fun best p =>
            match best with
            | none => some p
            | some b => if p.2.timestamp < b.2.timestamp then some p else best)
          (some b) = some c ∧
        (c = b ∨ c ∈ m) ∧ c.2.timestamp ≤ b.2.timestamp ∧
        ∀ q ∈ m, c.2.timestamp ≤ q.2.timestamp := by
  induction m with
  | nil =>
    intro b
    exact ⟨b, rfl, Or.inl rfl, le_refl _, by simp⟩
  | cons p m ih =>
    intro b
    simp only [List.foldl_cons]
    by_cases hp : p.2.timestamp < b.2.timestamp
    · simp only [hp, if_pos]
      obtain ⟨c, h1, h2, h3, h4⟩ := ih p
      refine ⟨c, h1, ?_, by omega, ?_⟩
      · rcases h2 with rfl | h2
        · exact Or.inr (List.mem_cons_self _ _)
        · exact Or.inr (List.mem_cons_of_mem _ h2)
      · intro q hq
        rcases List.mem_cons.mp hq with rfl | hq'
        · exact h3
        · exact h4 q hq'
    · simp only [hp, if_neg, if_false]
      obtain ⟨c, h1, h2, h3, h4⟩ := ih b
      refine ⟨c, h1, ?_, h3, ?_⟩
      · rcases h2 with rfl | h2
        · exact Or.inl rfl
        · exact Or.inr (List.mem_cons_of_mem _ h2)
      · intro q hq
        rcases List.mem_cons.mp hq with rfl | hq'
        · omega
        · exact h4 q hq'

theorem findOldest_spec (m : List (String × CacheEntry)) (hm : m ≠ []) :
    ∃ p, findOldest m = some p ∧ p ∈ m ∧
      ∀ q ∈ m, p.2.timestamp ≤ q.2.timestamp := by
  cases m with
  | nil => exact absurd rfl hm
  | cons b m =>
    rw [findOldest, List.foldl_cons]
    obtain ⟨c, h1, h2, h3, h4⟩ := findOldest_go m b
    refine ⟨c, h1, ?_, ?_⟩
    · rcases h2 with rfl | h2
      · exact List.mem_cons_self _ _
      · exact List.mem_cons_of_mem _ h2
    · intro q hq
      rcases List.mem_cons.mp hq with rfl | hq'
      · exact h3
      · exact h4 q hq'

theorem filter_ne_key_length (m : List (String × CacheEntry)) (k : String)
    (hnd : (m.map Prod.fst).Nodup) (hk : k ∈ m.map Prod.fst) :
    (m.filter (fun q => q.1 != k)).length + 1 = m.length := by
  induction m with
  | nil => simp at hk
  | cons p m ih =>
    simp only [List.map_cons, List.nodup_cons] at hnd
    by_cases hp : p.1 = k
    · subst hp
      rw [List.filter_cons]
      simp only [bne_self_eq_false, Bool.false_eq_true, if_false]
      have : m.filter (fun q => q.1 != p.1) = m := by
        apply List.filter_eq_self.mpr
        intro q hq
        have : q.1 ∈ m.map Prod.fst := List.mem_map_of_mem _ hq
        simp only [bne_iff_ne, ne_eq]
        intro hcontra
        exact hnd.1 (hcontra ▸ this)
      rw [this]
      simp
    · rw [List.filter_cons]
      have hb : (p.1 != k) = true := bne_iff_ne.mpr hp
      simp only [hb, if_true]
      have hk' : k ∈ m.map Prod.fst := by
        rcases List.mem_cons.mp hk with h | h
        · exact absurd h.symm hp
        · exact h
      have := ih hnd.2 hk'
      simp only [List.length_cons]
      omega

theorem evictOldestEntry_length_le (m : List (String × CacheEntry)) :
    (evictOldestEntry m).length ≤ m.length := by
  rw [evictOldestEntry]
  split
  · exact le_refl _
  · cases h : findOldest m with
    | none => exact le_refl _
    | some p =>
      by_cases hp : p.1 = ""
      · simp [hp]
      · simp only [hp, if_neg]
        exact List.length_filter_le _ _

theorem evictOldestEntry_length (m : List (String × CacheEntry))
    (hnd : (m.map Prod.fst).Nodup) (hne : "" ∉ m.map Prod.fst)
    (hm : m ≠ []) :
    (evictOldestEntry m).length + 1 = m.length := by
  obtain ⟨p, h1, h2, _⟩ := findOldest_spec m hm
  have hkey : p.1 ∈ m.map Prod.fst := List.mem_map_of_mem _ h2
  have hp : p.1 ≠ "" := fun hc => hne (hc ▸ hkey)
  rw [evictOldestEntry]
  have hlen : ¬(m.length = 0) := by
    cases m
    · exact absurd rfl hm
    · simp
  rw [if_neg hlen, h1]
  simp only [hp, if_neg]
  exact filter_ne_key_length m p.1 hnd hkey

theorem mapSet_length (m : List (String × CacheEntry)) (k : String)
    (v : CacheEntry) :
    (mapSet m k v).length =
      if k ∈ m.map Prod.fst then m.length else m.length + 1 := by
  rw [mapSet]
  by_cases hk : k ∈ m.map Prod.fst
  · simp [hk]
  · simp [hk]

end Cache

/-- C5 (amended): on a cache write, when a limit check fires the entry with
the oldest timestamp is chosen for eviction (earliest-inserted minimal
entry), at most one eviction happens per check — the size estimate is made
once, after the count eviction, not retried in a loop — and after insertion
the entry count never exceeds `maxEntries` (for `maxEntries ≥ 1` and a
well-formed map with no empty-string key); the estimated byte size, by
contrast, may still exceed `maxSizeBytes` (see the counterexample). -/
theorem C5_cache_write_amended (m : List (String × Cache.CacheEntry))
    (filePath hash ruleVersion : String) (findings : List Finding)
    (now maxEntries maxSizeBytes : Nat)
    (hnd : (m.map Prod.fst).Nodup) (hne : "" ∉ m.map Prod.fst)
    (hmax : 1 ≤ maxEntries) (hlen : m.length ≤ maxEntries) :
    (Cache.doSetCachedFindings m filePath findings hash now maxEntries
      maxSizeBytes ruleVersion).length ≤ maxEntries ∧
    (m ≠ [] → ∃ p, Cache.findOldest m = some p ∧ p ∈ m ∧
      ∀ q ∈ m, p.2.timestamp ≤ q.2.timestamp) := by
  constructor
  · simp only [Cache.doSetCachedFindings]
    by_cases hcount : m.length ≥ maxEntries
    · have hmlen : m.length = maxEntries := le_antisymm hlen hcount
      have hm : m ≠ [] := by
        intro hc
        rw [hc] at hmlen
        simp at hmlen
        omega
      have he1 := Cache.evictOldestEntry_length m hnd hne hm
      rw [if_pos hcount]
      by_cases hsize :
          Cache.estimateCacheSize (Cache.evictOldestEntry m) ≥ maxSizeBytes
      · rw [if_pos hsize, Cache.mapSet_length]
        have he2 :=
          Cache.evictOldestEntry_length_le (Cache.evictOldestEntry m)
        split
        · omega
        · omega
      · rw [if_neg hsize, Cache.mapSet_length]
        split
        · omega
        · omega
    · rw [if_neg hcount]
      by_cases hsize : Cache.estimateCacheSize m ≥ maxSizeBytes
      · rw [if_pos hsize, Cache.mapSet_length]
        have he2 := Cache.evictOldestEntry_length_le m
        split
        · omega
        · omega
      · rw [if_neg hsize, Cache.mapSet_length]
        split
        · omega
        · omega
  · exact Cache.findOldest_spec m

/-- Counterexample to C5 as stated: with `maxEntries = 10` and
`maxSizeBytes = 1000`, writing to a three-entry cache whose estimated size
is 1776 evicts only one entry (the size check is not retried after that
eviction removed too little), and after insertion the estimated size is
1276, which exceeds `maxSizeBytes` — the claim's "estimated byte size stays
within maxSizeBytes" is false. -/
theorem C5_size_cap_counterexample :
    Cache.estimateCacheSize
      (Cache.doSetCachedFindings Cache.exCache "/new" [] "h" 100 10 1000
        "1.0") > 1000 := by
  decide

/-- Witness for the amended C5 at a concrete cache. -/
theorem C5_cache_write_amended_witness :
    (Cache.doSetCachedFindings Cache.exCache "/new" [] "h" 100 10 1000
      "1.0").length ≤ 10 :=
  (C5_cache_write_amended Cache.exCache "/new" "h" "1.0" [] 100 10 1000
    (by decide) (by decide) (by decide) (by decide)).1

namespace McpCollect

theorem utf8Len_ascii : ∀ l : JStr, (∀ u ∈ l, u < 0x80) → utf8Len l = l.length := by
  intro l
  induction l with
  | nil => intro _; rfl
  | cons u rest ih =>
    intro h
    rw [utf8Len.eq_def]
    simp only [if_pos (h u (List.mem_cons_self _ _))]
    rw [ih (fun v hv => h v (List.mem_cons_of_mem _ hv))]
    simp [Nat.add_comm]

end McpCollect

/-- C8 (amended): for a `resources/read` response with at least one string
`contents[].text` field, the collected text is the **newline-joined** text
fields; when its UTF-8 byte length is within `max_resource_bytes` it is
stored unchanged, and when it exceeds the cap the stored content is the
prefix of the first `max(0, max_resource_bytes)` **UTF-16 code units**
(`String.prototype.slice`), so the UTF-8 byte length of the stored content
is guaranteed within the cap only for ASCII text. -/
theorem C8_resource_text_amended (contents : List (Option McpCollect.JStr))
    (maxBytes : Int) (hne : contents.filterMap id ≠ []) :
    ∃ t, McpCollect.pickTextContent contents maxBytes = some t ∧
      t <+: List.intercalate [10] (contents.filterMap id) ∧
      ((McpCollect.utf8Len (List.intercalate [10] (contents.filterMap id)) :
          Int) ≤ maxBytes →
        t = List.intercalate [10] (contents.filterMap id)) ∧
      ((McpCollect.utf8Len (List.intercalate [10] (contents.filterMap id)) :
          Int) > maxBytes →
        t = (List.intercalate [10] (contents.filterMap id)).take
          (max 0 maxBytes).toNat) ∧
      ((∀ u ∈ List.intercalate [10] (contents.filterMap id), u < 0x80) →
        (McpCollect.utf8Len t : Int) ≤ max 0 maxBytes) := by
  rw [McpCollect.pickTextContent]
  have hpe : (contents.filterMap id).isEmpty = false :=
    List.isEmpty_eq_false.mpr hne
  simp only [hpe, Bool.false_eq_true, if_false]
  by_cases hgt :
      (McpCollect.utf8Len (List.intercalate [10] (contents.filterMap id)) :
        Int) > maxBytes
  · rw [if_pos hgt]
    refine ⟨_, rfl, List.take_prefix _ _, fun hle => absurd hle (by omega),
      fun _ => rfl, ?_⟩
    intro hascii
    have hsub : ∀ u ∈ (List.intercalate [10] (contents.filterMap id)).take
        (max 0 maxBytes).toNat, u < 0x80 :=
      fun u hu => hascii u (List.mem_of_mem_take hu)
    rw [McpCollect.utf8Len_ascii _ hsub, List.length_take]
    have h1 : ((max 0 maxBytes).toNat : Int) = max 0 maxBytes :=
      Int.toNat_of_nonneg (le_max_left _ _)
    omega
  · rw [if_neg hgt]
    refine ⟨_, rfl, List.prefix_refl _, fun _ => rfl,
      fun hc => absurd hc hgt, ?_⟩
    intro hascii
    have := le_max_right (0 : Int) maxBytes
    omega

/-- Witness for the amended C8 at a concrete response (`contents` =
`[{text: "hi"}]`, default 1 MiB cap). -/
theorem C8_resource_text_amended_witness :
    ∃ t, McpCollect.pickTextContent [some [104, 105]] 1048576 = some t ∧
      t <+: List.intercalate [10] (([some [104, 105]] :
        List (Option McpCollect.JStr)).filterMap id) ∧
      ((McpCollect.utf8Len (List.intercalate [10] (([some [104, 105]] :
          List (Option McpCollect.JStr)).filterMap id)) : Int) ≤ 1048576 →
        t = List.intercalate [10] (([some [104, 105]] :
          List (Option McpCollect.JStr)).filterMap id)) ∧
      ((McpCollect.utf8Len (List.intercalate [10] (([some [104, 105]] :
          List (Option McpCollect.JStr)).filterMap id)) : Int) > 1048576 →
        t = (List.intercalate [10] (([some [104, 105]] :
          List (Option McpCollect.JStr)).filterMap id)).take
          (max 0 (1048576 : Int)).toNat) ∧
      ((∀ u ∈ List.intercalate [10] (([some [104, 105]] :
          List (Option McpCollect.JStr)).filterMap id), u < 0x80) →
        (McpCollect.utf8Len t : Int) ≤ max 0 (1048576 : Int)) :=
  C8_resource_text_amended [some [104, 105]] 1048576 (by decide)

/-- Counterexample to C8 as stated: with `max_resource_bytes = 2` and a
single text `"éé"` (code units `[0xE9, 0xE9]`, UTF-8 byte length 4 > 2),
the stored content is the 2-code-unit slice `[0xE9, 0xE9]` whose UTF-8
encoding is 4 bytes — above the cap; and two texts `"a"`, `"b"` are stored
as `"a\na"`-style newline joins, not as the plain concatenation `"ab"`. -/
theorem C8_byte_cap_counterexample :
    McpCollect.pickTextContent [some [0xE9, 0xE9]] 2 = some [0xE9, 0xE9] ∧
    McpCollect.utf8Len [0xE9, 0xE9] = 4 ∧
    McpCollect.pickTextContent [some [97], some [98]] 1048576 =
      some [97, 10, 98] := by
  refine ⟨by decide, by decide, by decide⟩

namespace Mcp

theorem isNoRetry_of_client (c : Int)
    (h : c = -32601 ∨ (400 ≤ c ∧ c < 500)) :
    isNoRetry (RpcError.mcp (some c)) = true := by
  rcases h with rfl | ⟨h1, h2⟩
  · simp [isNoRetry]
  · have hc0 : (c == 0) = false := by
      simp only [beq_eq_false_iff_ne, ne_eq]
      omega
    have hc4 : decide (400 ≤ c) = true := decide_eq_true h1
    have hc5 : decide (c < 500) = true := decide_eq_true h2
    simp [isNoRetry, hc0, hc4, hc5]

theorem retryGo_calls_le {α : Type} (o : Nat → Except RpcError α) (b : ℚ)
    (j : Nat → ℚ) :
    ∀ remaining attempt, (retryGo o b j remaining attempt).2.1 ≤
      remaining + 1 := by
  intro remaining
  induction remaining with
  | zero =>
    intro attempt
    rw [retryGo]
    cases o attempt with
    | ok v => simp
    | error e =>
      by_cases hn : isNoRetry e
      · simp [hn]
      · simp [hn]
  | succ r ih =>
    intro attempt
    rw [retryGo]
    cases o attempt with
    | ok v => simp
    | error e =>
      by_cases hn : isNoRetry e
      · simp [hn]
      · simp only [hn, Bool.false_eq_true, if_false]
        have := ih (attempt + 1)
        show (retryGo o b j r (attempt + 1)).2.1 + 1 ≤ r + 1 + 1
        omega

theorem retryGo_delays {α : Type} (o : Nat → Except RpcError α) (b : ℚ)
    (j : Nat → ℚ) :
    ∀ remaining attempt k d,
      ((retryGo o b j remaining attempt).2.2).get? k = some d →
      d = b * 2 ^ (attempt + k) +
        j (attempt + k) * (3 / 10) * (b * 2 ^ (attempt + k)) := by
  intro remaining
  induction remaining with
  | zero =>
    intro attempt k d h
    rw [retryGo] at h
    cases ho : o attempt with
    | ok v => rw [ho] at h; simp at h
    | error e =>
      rw [ho] at h
      by_cases hn : isNoRetry e
      · simp [hn] at h
      · simp [hn] at h
  | succ r ih =>
    intro attempt k d h
    rw [retryGo] at h
    cases ho : o attempt with
    | ok v => rw [ho] at h; simp at h
    | error e =>
      rw [ho] at h
      by_cases hn : isNoRetry e
      · simp [hn] at h
      · simp only [hn, Bool.false_eq_true, if_false] at h
        cases k with
        | zero =>
          simp only [List.get?_cons_zero, Option.some.injEq] at h
          subst h
          simp
        | succ k =>
          simp only [List.get?_cons_succ] at h
          have := ih (attempt + 1) k d h
          rw [this, show attempt + 1 + k = attempt + (k + 1) from by omega]

theorem retryGo_all_fail {α : Type} (o : Nat → Except RpcError α) (b : ℚ)
    (j : Nat → ℚ) :
    ∀ remaining attempt,
      (∀ i, attempt ≤ i → i ≤ attempt + remaining →
        ∃ e, o i = Except.error e ∧ isNoRetry e = false) →
      (retryGo o b j remaining attempt).2.1 = remaining + 1 := by
  intro remaining
  induction remaining with
  | zero =>
    intro attempt hall
    obtain ⟨e, he, hne⟩ := hall attempt (le_refl _) (by omega)
    rw [retryGo, he]
    simp [hne]
  | succ r ih =>
    intro attempt hall
    obtain ⟨e, he, hne⟩ := hall attempt (le_refl _) (by omega)
    rw [retryGo, he]
    simp only [hne, Bool.false_eq_true, if_false]
    have := ih (attempt + 1) (fun i h1 h2 => hall i (by omega) (by omega))
    show (retryGo o b j r (attempt + 1)).2.1 + 1 = r + 1 + 1
    omega

end Mcp

/-- C7: the rpc retry loop never retries on JSON-RPC error `-32601` or any
4xx code (exactly one underlying call, no waiting); call count never
exceeds `maxRetries + 1`; every waited delay is
`base * 2^attempt + rand * 0.3 * (base * 2^attempt)`, hence between the
exponential backoff and 130% of it for `rand ∈ [0,1)`; and when every
attempt fails with a retryable error (network error: no code; or 5xx),
all `maxRetries + 1` calls are made. -/
theorem C7_retry_policy {α : Type} (outcomes : Nat → Except Mcp.RpcError α)
    (maxRetries : Nat) (base : ℚ) (jitterRand : Nat → ℚ) :
    (∀ c, outcomes 0 = Except.error (Mcp.RpcError.mcp (some c)) →
      (c = -32601 ∨ (400 ≤ c ∧ c < 500)) →
      Mcp.retryWithBackoff outcomes maxRetries base jitterRand =
        (Except.error (Mcp.RpcError.mcp (some c)), 1, [])) ∧
    (Mcp.retryWithBackoff outcomes maxRetries base jitterRand).2.1 ≤
      maxRetries + 1 ∧
    (∀ k d,
      ((Mcp.retryWithBackoff outcomes maxRetries base jitterRand).2.2).get? k =
        some d →
      d = base * 2 ^ k + jitterRand k * (3 / 10) * (base * 2 ^ k) ∧
      (0 < base → 0 ≤ jitterRand k → jitterRand k < 1 →
        base * 2 ^ k ≤ d ∧ d < base * 2 ^ k * (13 / 10))) ∧
    ((∀ i, i ≤ maxRetries →
        ∃ e, outcomes i = Except.error e ∧ Mcp.isNoRetry e = false) →
      (Mcp.retryWithBackoff outcomes maxRetries base jitterRand).2.1 =
        maxRetries + 1) := by
  refine ⟨?_, ?_, ?_, ?_⟩
  · intro c hout hc
    rw [Mcp.retryWithBackoff, Mcp.retryGo, hout]
    simp [Mcp.isNoRetry_of_client c hc]
  · exact Mcp.retryGo_calls_le outcomes base jitterRand maxRetries 0
  · intro k d h
    have hd := Mcp.retryGo_delays outcomes base jitterRand maxRetries 0 k d h
    simp only [Nat.zero_add] at hd
    refine ⟨hd, ?_⟩
    intro hb hr0 hr1
    have hD : (0 : ℚ) < base * 2 ^ k := by positivity
    constructor
    · rw [hd]
      nlinarith
    · rw [hd]
      nlinarith
  · intro hall
    exact Mcp.retryGo_all_fail outcomes base jitterRand maxRetries 0
      (fun i h1 h2 => hall i (by omega))

/-- Witness for C7 at a concrete client error (HTTP 404). -/
theorem C7_retry_policy_witness :
    Mcp.retryWithBackoff
        (fun _ => (Except.error (Mcp.RpcError.mcp (some 404)) :
          Except Mcp.RpcError Unit)) 3 1 (fun _ => 0) =
      (Except.error (Mcp.RpcError.mcp (some 404)), 1, []) :=
  (C7_retry_policy (fun _ => Except.error (Mcp.RpcError.mcp (some 404))) 3 1
      (fun _ => 0)).1 404 rfl (Or.inr ⟨by norm_num, by norm_num⟩)

/-- C10: `filterByConfidence` retains every finding whose confidence field
is absent, for every threshold `minConfidence ≤ 1`: a missing confidence is
read as `1.0`. -/
theorem C10_missing_confidence_retained (findings : List Finding)
    (minConfidence : ℚ) (hmin : minConfidence ≤ 1) :
    ∀ f ∈ findings, f.confidence = none →
      f ∈ Confidence.filterByConfidence findings minConfidence := by
  intro f hf hc
  apply List.mem_filter.mpr
  refine ⟨hf, ?_⟩
  rw [hc]
  simpa using hmin

/-- Witness for C10 at a concrete finding and the default threshold 0.5. -/
theorem C10_missing_confidence_retained_witness :
    Confidence.noConfFinding ∈
      Confidence.filterByConfidence [Confidence.noConfFinding] (1 / 2) :=
  C10_missing_confidence_retained [Confidence.noConfFinding] (1 / 2)
    (by norm_num) Confidence.noConfFinding (List.mem_singleton_self _) rfl

/-- Witness for C3 at a concrete input. -/
theorem C3_scanContent_terminates_witness :
    Engine.scanContent Engine.exContent "a.py" "python" [Engine.exRule] ≠
      none :=
  (C3_scanContent_terminates Engine.exContent "a.py" "python" [Engine.exRule]
    (by
      intro rule hrule re hre
      simp only [Engine.exRule, List.mem_singleton] at hrule
      subst hrule
      simp only [List.mem_singleton] at hre
      subst hre
      exact Engine.litFind_wf "connect(localhost)")).1

namespace Fs

theorem normStack_nil (aab : Bool) (stack : List (List Char)) :
    normStack aab stack [] = stack.reverse := rfl

theorem normStack_cons (aab : Bool) (stack : List (List Char))
    (seg : List Char) (rest : List (List Char)) :
    normStack aab stack (seg :: rest) =
      if seg = [] ∨ seg = ['.'] then normStack aab stack rest
      else if seg = ['.', '.'] then
        normStack aab (popDotDot aab seg stack) rest
      else normStack aab (seg :: stack) rest := rfl

theorem mem_popDotDot (seg : List Char) (stack : List (List Char)) :
    ∀ s ∈ popDotDot false seg stack, s ∈ stack := by
  intro s hs
  cases stack with
  | nil => simp [popDotDot] at hs
  | cons top stack' =>
    rw [popDotDot] at hs
    by_cases ht : top = ['.', '.']
    · rw [if_pos ht] at hs
      simpa using hs
    · rw [if_neg ht] at hs
      exact List.mem_cons_of_mem _ hs

theorem mem_splitSlash_no_slash :
    ∀ l : List Char, ∀ s ∈ splitSlash l, '/' ∉ s := by
  intro l
  induction l with
  | nil =>
    intro s hs
    simp [splitSlash] at hs
    subst hs
    simp
  | cons c rest ih =>
    intro s hs
    rw [splitSlash] at hs
    by_cases hc : c = '/'
    · rw [if_pos hc] at hs
      rcases List.mem_cons.mp hs with rfl | hs'
      · simp
      · exact ih s hs'
    · rw [if_neg hc] at hs
      cases hsp : splitSlash rest with
      | nil =>
        rw [hsp] at hs
        simp at hs
        subst hs
        intro hm
        simp at hm
        exact hc hm.symm
      | cons t ts =>
        rw [hsp] at hs
        rcases List.mem_cons.mp hs with rfl | hs'
        · intro hmem
          rcases List.mem_cons.mp hmem with h | h
          · exact hc h.symm
          · exact ih t (hsp ▸ List.mem_cons_self _ _) h
        · exact ih s (hsp ▸ List.mem_cons_of_mem _ hs')

theorem splitSlash_no_slash (s : List Char) (h : '/' ∉ s) :
    splitSlash s = [s] := by
  induction s with
  | nil => rfl
  | cons c rest ih =>
    rw [splitSlash]
    have hc : ¬(c = '/') := fun hc => h (hc ▸ List.mem_cons_self _ _)
    rw [if_neg hc, ih (fun hm => h (List.mem_cons_of_mem _ hm))]

theorem splitSlash_append (s t : List Char) (h : '/' ∉ s) :
    splitSlash (s ++ '/' :: t) = s :: splitSlash t := by
  induction s with
  | nil =>
    simp only [List.nil_append]
    rw [splitSlash, if_pos rfl]
  | cons c rest ih =>
    have hc : ¬(c = '/') := fun hc => h (hc ▸ List.mem_cons_self _ _)
    simp only [List.cons_append]
    rw [splitSlash, if_neg hc, ih (fun hm => h (List.mem_cons_of_mem _ hm))]

theorem joinSlash_ne_nil :
    ∀ segs : List (List Char), segs ≠ [] → (∀ s ∈ segs, goodSeg s) →
      joinSlash segs ≠ [] := by
  intro segs
  induction segs with
  | nil => intro h _; exact absurd rfl h
  | cons s ss ih =>
    intro _ hgood
    cases ss with
    | nil =>
      show joinSlash [s] ≠ []
      rw [joinSlash]
      exact (hgood s (List.mem_cons_self _ _)).1
    | cons t ts =>
      show s ++ '/' :: joinSlash (t :: ts) ≠ []
      simp

theorem splitSlash_joinSlash :
    ∀ segs : List (List Char), segs ≠ [] → (∀ s ∈ segs, '/' ∉ s) →
      splitSlash (joinSlash segs) = segs := by
  intro segs
  induction segs with
  | nil => intro h _; exact absurd rfl h
  | cons s ss ih =>
    intro _ hns
    cases ss with
    | nil =>
      show splitSlash (joinSlash [s]) = [s]
      rw [joinSlash]
      exact splitSlash_no_slash s (hns s (List.mem_cons_self _ _))
    | cons t ts =>
      show splitSlash (s ++ '/' :: joinSlash (t :: ts)) = s :: t :: ts
      rw [splitSlash_append s _ (hns s (List.mem_cons_self _ _))]
      rw [ih (by simp) (fun u hu => hns u (List.mem_cons_of_mem _ hu))]

theorem normStack_good :
    ∀ (segs : List (List Char)) (stack : List (List Char)),
      (∀ s ∈ stack, goodSeg s) → (∀ s ∈ segs, '/' ∉ s) →
      ∀ s ∈ normStack false stack segs, goodSeg s := by
  intro segs
  induction segs with
  | nil =>
    intro stack hst _ s hs
    rw [normStack_nil] at hs
    exact hst s (List.mem_reverse.mp hs)
  | cons seg rest ih =>
    intro stack hst hns s hs
    rw [normStack_cons] at hs
    by_cases h1 : seg = [] ∨ seg = ['.']
    · rw [if_pos h1] at hs
      exact ih stack hst (fun u hu => hns u (List.mem_cons_of_mem _ hu)) s hs
    · rw [if_neg h1] at hs
      by_cases h2 : seg = ['.', '.']
      · rw [if_pos h2] at hs
        exact ih (popDotDot false seg stack)
          (fun u hu => hst u (mem_popDotDot seg stack u hu))
          (fun u hu => hns u (List.mem_cons_of_mem _ hu)) s hs
      · rw [if_neg h2] at hs
        refine ih (seg :: stack) ?_
          (fun u hu => hns u (List.mem_cons_of_mem _ hu)) s hs
        intro u hu
        rcases List.mem_cons.mp hu with rfl | hu'
        · push_neg at h1
          exact ⟨h1.1, h1.2, h2, hns u (List.mem_cons_self _ _)⟩
        · exact hst u hu'

theorem normStack_all_good :
    ∀ (segs : List (List Char)), (∀ s ∈ segs, goodSeg s) →
      ∀ stack, normStack false stack segs = stack.reverse ++ segs := by
  intro segs
  induction segs with
  | nil => intro _ stack; rw [normStack_nil]; simp
  | cons seg rest ih =>
    intro hgood stack
    have hg := hgood seg (List.mem_cons_self _ _)
    rw [normStack_cons]
    have h1 : ¬(seg = [] ∨ seg = ['.']) := by
      push_neg
      exact ⟨hg.1, hg.2.1⟩
    rw [if_neg h1, if_neg hg.2.2.1]
    rw [ih (fun u hu => hgood u (List.mem_cons_of_mem _ hu)) (seg :: stack)]
    simp

theorem joinSlash_getLast_ne_slash :
    ∀ segs : List (List Char), segs ≠ [] → (∀ s ∈ segs, goodSeg s) →
      (joinSlash segs).getLast? ≠ some '/' := by
  intro segs
  induction segs with
  | nil => intro h _; exact absurd rfl h
  | cons s ss ih =>
    intro _ hgood
    cases ss with
    | nil =>
      show (joinSlash [s]).getLast? ≠ some '/'
      rw [joinSlash]
      have hg := hgood s (List.mem_cons_self _ _)
      intro hc
      have : '/' ∈ s := by
        rcases List.getLast?_eq_some_iff.mp hc with ⟨l', hl'⟩
        rw [hl']
        simp
      exact hg.2.2.2 this
    | cons t ts =>
      show (s ++ '/' :: joinSlash (t :: ts)).getLast? ≠ some '/'
      have hne : joinSlash (t :: ts) ≠ [] :=
        joinSlash_ne_nil _ (by simp)
          (fun u hu => hgood u (List.mem_cons_of_mem _ hu))
      rw [List.getLast?_append_cons]
      rw [show ('/' :: joinSlash (t :: ts)) = ['/'] ++ joinSlash (t :: ts)
        from rfl]
      rw [List.getLast?_append_of_ne_nil _ hne]
      exact ih (by simp) (fun u hu => hgood u (List.mem_cons_of_mem _ hu))

end Fs

namespace Fs

theorem resolve1_canonical (cwd p : List Char) :
    isCanonicalAbs (resolve1 cwd p) := by
  simp only [resolve1]
  generalize (if p.head? = some '/' then p else cwd ++ '/' :: p) = r
  cases hns : normStack false [] (splitSlash r) with
  | nil =>
    left
    rfl
  | cons s segs =>
    right
    refine ⟨s :: segs, by simp, ?_, rfl⟩
    intro u hu
    exact normStack_good (splitSlash r) [] (by simp)
      (mem_splitSlash_no_slash r) u (hns ▸ hu)

theorem normalize_canonical (q : List Char) (h : isCanonicalAbs q) :
    normalize q = q := by
  rcases h with rfl | ⟨segs, hne, hgood, rfl⟩
  · decide
  · have hjne : joinSlash segs ≠ [] := joinSlash_ne_nil segs hne hgood
    have hnoslash : ∀ s ∈ segs, '/' ∉ s :=
      fun s hs => (hgood s hs).2.2.2
    have hsplit : splitSlash ('/' :: joinSlash segs) = [] :: segs := by
      rw [show ('/' :: joinSlash segs) = [] ++ '/' :: joinSlash segs from rfl,
        splitSlash_append [] _ (by simp), splitSlash_joinSlash segs hne
          hnoslash]
    have hstack : normStack false [] (splitSlash ('/' :: joinSlash segs)) =
        segs := by
      rw [hsplit, normStack_cons]
      rw [if_pos (Or.inl rfl)]
      rw [normStack_all_good segs hgood []]
      rfl
    rw [normalize]
    rw [if_neg (by simp),
      if_pos (show ('/' :: joinSlash segs).head? = some '/' from rfl), hstack]
    rw [if_neg hjne]
    have htrail : ¬(('/' :: joinSlash segs).getLast? = some '/') := by
      rw [show ('/' :: joinSlash segs) = ['/'] ++ joinSlash segs from rfl,
        List.getLast?_append_of_ne_nil _ hjne]
      exact joinSlash_getLast_ne_slash segs hne hgood
    rw [if_neg htrail]

theorem resolve1_fixed (cwd q : List Char) (h : isCanonicalAbs q) :
    resolve1 cwd q = q := by
  rcases h with rfl | ⟨segs, hne, hgood, rfl⟩
  · rfl
  · have hnoslash : ∀ s ∈ segs, '/' ∉ s :=
      fun s hs => (hgood s hs).2.2.2
    have hsplit : splitSlash ('/' :: joinSlash segs) = [] :: segs := by
      rw [show ('/' :: joinSlash segs) = [] ++ '/' :: joinSlash segs from rfl,
        splitSlash_append [] _ (by simp), splitSlash_joinSlash segs hne
          hnoslash]
    rw [resolve1]
    rw [if_pos (show ('/' :: joinSlash segs).head? = some '/' from rfl),
      hsplit, normStack_cons, if_pos (Or.inl rfl),
      normStack_all_good segs hgood []]
    rfl

theorem mem_splitSlash_chars :
    ∀ l : List Char, ∀ s ∈ splitSlash l, ∀ c ∈ s, c ∈ l := by
  intro l
  induction l with
  | nil =>
    intro s hs c hc
    simp [splitSlash] at hs
    subst hs
    simp at hc
  | cons a rest ih =>
    intro s hs c hc
    rw [splitSlash] at hs
    by_cases ha : a = '/'
    · rw [if_pos ha] at hs
      rcases List.mem_cons.mp hs with rfl | hs'
      · simp at hc
      · exact List.mem_cons_of_mem _ (ih s hs' c hc)
    · rw [if_neg ha] at hs
      cases hsp : splitSlash rest with
      | nil =>
        rw [hsp] at hs
        simp at hs
        subst hs
        simp at hc
        simp [hc]
      | cons t ts =>
        rw [hsp] at hs
        rcases List.mem_cons.mp hs with rfl | hs'
        · rcases List.mem_cons.mp hc with rfl | hc'
          · exact List.mem_cons_self _ _
          · exact List.mem_cons_of_mem _
              (ih t (hsp ▸ List.mem_cons_self _ _) c hc')
        · exact List.mem_cons_of_mem _
            (ih s (hsp ▸ List.mem_cons_of_mem _ hs') c hc)

theorem mem_joinSlash_chars :
    ∀ segs : List (List Char), ∀ c ∈ joinSlash segs,
      c = '/' ∨ ∃ s ∈ segs, c ∈ s := by
  intro segs
  induction segs with
  | nil => intro c hc; simp [joinSlash] at hc
  | cons s ss ih =>
    intro c hc
    cases ss with
    | nil =>
      rw [show joinSlash [s] = s from rfl] at hc
      exact Or.inr ⟨s, List.mem_cons_self _ _, hc⟩
    | cons t ts =>
      rw [show joinSlash (s :: t :: ts) = s ++ '/' :: joinSlash (t :: ts)
        from rfl] at hc
      rcases List.mem_append.mp hc with hc' | hc'
      · exact Or.inr ⟨s, List.mem_cons_self _ _, hc'⟩
      · rcases List.mem_cons.mp hc' with rfl | hc''
        · exact Or.inl rfl
        · rcases ih c hc'' with h | ⟨u, hu, hcu⟩
          · exact Or.inl h
          · exact Or.inr ⟨u, List.mem_cons_of_mem _ hu, hcu⟩

theorem normStack_mem :
    ∀ (segs stack : List (List Char)), ∀ s ∈ normStack false stack segs,
      s ∈ stack ∨ s ∈ segs := by
  intro segs
  induction segs with
  | nil =>
    intro stack s hs
    rw [normStack_nil] at hs
    exact Or.inl (List.mem_reverse.mp hs)
  | cons seg rest ih =>
    intro stack s hs
    rw [normStack_cons] at hs
    by_cases h1 : seg = [] ∨ seg = ['.']
    · rw [if_pos h1] at hs
      rcases ih stack s hs with h | h
      · exact Or.inl h
      · exact Or.inr (List.mem_cons_of_mem _ h)
    · rw [if_neg h1] at hs
      by_cases h2 : seg = ['.', '.']
      · rw [if_pos h2] at hs
        rcases ih _ s hs with h | h
        · exact Or.inl (mem_popDotDot seg stack s h)
        · exact Or.inr (List.mem_cons_of_mem _ h)
      · rw [if_neg h2] at hs
        rcases ih _ s hs with h | h
        · rcases List.mem_cons.mp h with rfl | h'
          · exact Or.inr (List.mem_cons_self _ _)
          · exact Or.inl h'
        · exact Or.inr (List.mem_cons_of_mem _ h)

theorem resolve1_chars (cwd p : List Char) :
    ∀ c ∈ resolve1 cwd p, c = '/' ∨ c ∈ cwd ∨ c ∈ p := by
  intro c hc
  simp only [resolve1] at hc
  rcases List.mem_cons.mp hc with rfl | hc'
  · exact Or.inl rfl
  · rcases mem_joinSlash_chars _ c hc' with h | ⟨s, hs, hcs⟩
    · exact Or.inl h
    · rcases normStack_mem _ [] s hs with h | h
      · simp at h
      · have hr := mem_splitSlash_chars _ s h c hcs
        by_cases hhead : p.head? = some '/'
        · rw [if_pos hhead] at hr
          exact Or.inr (Or.inr hr)
        · rw [if_neg hhead] at hr
          rcases List.mem_append.mp hr with h' | h'
          · exact Or.inr (Or.inl h')
          · rcases List.mem_cons.mp h' with rfl | h''
            · exact Or.inl rfl
            · exact Or.inr (Or.inr h'')

end Fs

namespace Fs

theorem mem_popDotDot_any (aab : Bool) (seg : List Char)
    (stack : List (List Char)) :
    ∀ s ∈ popDotDot aab seg stack, s ∈ stack ∨ s = seg := by
  intro s hs
  cases stack with
  | nil =>
    rw [popDotDot] at hs
    split at hs
    · simp at hs
      exact Or.inr hs
    · simp at hs
  | cons top stack' =>
    rw [popDotDot] at hs
    by_cases ht : top = ['.', '.']
    · rw [if_pos ht] at hs
      split at hs
      · rcases List.mem_cons.mp hs with rfl | hs'
        · exact Or.inr rfl
        · exact Or.inl hs'
      · exact Or.inl hs
    · rw [if_neg ht] at hs
      exact Or.inl (List.mem_cons_of_mem _ hs)

theorem normStack_mem_any (aab : Bool) :
    ∀ (segs stack : List (List Char)), ∀ s ∈ normStack aab stack segs,
      s ∈ stack ∨ s ∈ segs := by
  intro segs
  induction segs with
  | nil =>
    intro stack s hs
    rw [normStack_nil] at hs
    exact Or.inl (List.mem_reverse.mp hs)
  | cons seg rest ih =>
    intro stack s hs
    rw [normStack_cons] at hs
    by_cases h1 : seg = [] ∨ seg = ['.']
    · rw [if_pos h1] at hs
      rcases ih stack s hs with h | h
      · exact Or.inl h
      · exact Or.inr (List.mem_cons_of_mem _ h)
    · rw [if_neg h1] at hs
      by_cases h2 : seg = ['.', '.']
      · rw [if_pos h2] at hs
        rcases ih _ s hs with h | h
        · rcases mem_popDotDot_any aab seg stack s h with h' | rfl
          · exact Or.inl h'
          · exact Or.inr (List.mem_cons_self _ _)
        · exact Or.inr (List.mem_cons_of_mem _ h)
      · rw [if_neg h2] at hs
        rcases ih _ s hs with h | h
        · rcases List.mem_cons.mp h with rfl | h'
          · exact Or.inr (List.mem_cons_self _ _)
          · exact Or.inl h'
        · exact Or.inr (List.mem_cons_of_mem _ h)

theorem joinSlash_normStack_chars (aab : Bool) (p : List Char) :
    ∀ c ∈ joinSlash (normStack aab [] (splitSlash p)), c = '/' ∨ c ∈ p := by
  intro c hc
  rcases mem_joinSlash_chars _ c hc with h | ⟨s, hs, hcs⟩
  · exact Or.inl h
  · rcases normStack_mem_any aab _ [] s hs with h | h
    · simp at h
    · exact Or.inr (mem_splitSlash_chars p s h c hcs)

theorem normalize_chars (p : List Char) :
    ∀ c ∈ normalize p, c = '/' ∨ c = '.' ∨ c ∈ p := by
  intro c hc
  rw [normalize] at hc
  split at hc
  · simp at hc
    exact Or.inr (Or.inl hc)
  · split at hc
    · split at hc
      · simp at hc
        exact Or.inl hc
      · split at hc
        · rcases List.mem_cons.mp hc with rfl | hc'
          · exact Or.inl rfl
          · rcases List.mem_append.mp hc' with hb | hs
            · rcases joinSlash_normStack_chars false p c hb with h | h
              · exact Or.inl h
              · exact Or.inr (Or.inr h)
            · simp at hs
              exact Or.inl hs
        · rcases List.mem_cons.mp hc with rfl | hc'
          · exact Or.inl rfl
          · rcases joinSlash_normStack_chars false p c hc' with h | h
            · exact Or.inl h
            · exact Or.inr (Or.inr h)
    · split at hc
      · split at hc
        · simp at hc
          rcases hc with h | h
          · exact Or.inr (Or.inl h)
          · exact Or.inl h
        · simp at hc
          exact Or.inr (Or.inl hc)
      · split at hc
        · rcases List.mem_append.mp hc with hb | hs
          · rcases joinSlash_normStack_chars true p c hb with h | h
            · exact Or.inl h
            · exact Or.inr (Or.inr h)
          · simp at hs
            exact Or.inl hs
        · rcases joinSlash_normStack_chars true p c hc with h | h
          · exact Or.inl h
          · exact Or.inr (Or.inr h)

theorem isCanonicalAbs_head {q : List Char} (h : isCanonicalAbs q) :
    q.head? = some '/' := by
  rcases h with rfl | ⟨segs, _, _, rfl⟩
  · rfl
  · rfl

end Fs

namespace Fs

theorem sanitizePath_no_null (homedir cwd p : List Char)
    (hh : '\x00' ∉ homedir) (hc : '\x00' ∉ cwd) :
    '\x00' ∉ sanitizePath homedir cwd p := by
  intro hmem
  simp only [sanitizePath] at hmem
  rcases resolve1_chars cwd _ _ hmem with h | h | h
  · exact absurd h (by decide)
  · exact hc h
  · rcases normalize_chars _ _ h with h' | h' | h'
    · exact absurd h' (by decide)
    · exact absurd h' (by decide)
    · split at h'
      · rcases List.mem_append.mp h' with h'' | h''
        · exact hh h''
        · have := List.mem_of_mem_drop h''
          rw [removeNulls] at this
          have := List.of_mem_filter this
          simp at this
      · rw [removeNulls] at h'
        have := List.of_mem_filter h'
        simp at this

theorem sanitizePath_head (homedir cwd p : List Char) :
    (sanitizePath homedir cwd p).head? = some '/' := rfl

theorem sanitizePath_canonical (homedir cwd p : List Char) :
    isCanonicalAbs (sanitizePath homedir cwd p) :=
  resolve1_canonical cwd _

theorem sanitizePath_fixed (homedir cwd q : List Char)
    (hcanon : isCanonicalAbs q) (hnn : '\x00' ∉ q) :
    sanitizePath homedir cwd q = q := by
  have hrm : removeNulls q = q := by
    rw [removeNulls]
    apply List.filter_eq_self.mpr
    intro c hcq
    simp only [bne_iff_ne, ne_eq]
    intro hcontra
    exact hnn (hcontra ▸ hcq)
  have hhead := isCanonicalAbs_head hcanon
  have hcond : ¬(q.take 2 = ['~', '/'] ∨ q = ['~']) := by
    push_neg
    constructor
    · intro hcontra
      cases q with
      | nil => simp at hcontra
      | cons a q' =>
        simp only [List.head?_cons, Option.some.injEq] at hhead
        rw [List.take_succ_cons] at hcontra
        have : a = '~' := (List.cons_eq_cons.mp hcontra).1
        rw [hhead] at this
        exact absurd this (by decide)
    · intro hcontra
      rw [hcontra] at hhead
      simp at hhead
  simp only [sanitizePath, hrm]
  rw [if_neg hcond]
  rw [normalize_canonical q hcanon, resolve1_fixed cwd q hcanon]

end Fs

/-- C6: `sanitizePath` is idempotent (given a null-free home directory and
working directory), its result is an absolute path containing no null
bytes, a cleaned path starting with `~/` (or exactly `~`) has the `~`
replaced by the home directory before resolution, and sanitizing `~` with a
canonical absolute home directory yields exactly that home directory. -/
theorem C6_sanitizePath_spec (homedir cwd p : List Char)
    (hh : '\x00' ∉ homedir) (hc : '\x00' ∉ cwd) :
    Fs.sanitizePath homedir cwd (Fs.sanitizePath homedir cwd p) =
      Fs.sanitizePath homedir cwd p ∧
    (Fs.sanitizePath homedir cwd p).head? = some '/' ∧
    '\x00' ∉ Fs.sanitizePath homedir cwd p ∧
    ((Fs.removeNulls p).take 2 = ['~', '/'] ∨ Fs.removeNulls p = ['~'] →
      Fs.sanitizePath homedir cwd p =
        Fs.resolve1 cwd
          (Fs.normalize (homedir ++ (Fs.removeNulls p).drop 1))) ∧
    (Fs.isCanonicalAbs homedir →
      Fs.sanitizePath homedir cwd ['~'] = homedir) := by
  refine ⟨?_, Fs.sanitizePath_head homedir cwd p,
    Fs.sanitizePath_no_null homedir cwd p hh hc, ?_, ?_⟩
  · exact Fs.sanitizePath_fixed homedir cwd _
      (Fs.sanitizePath_canonical homedir cwd p)
      (Fs.sanitizePath_no_null homedir cwd p hh hc)
  · intro hcond
    simp only [Fs.sanitizePath]
    rw [if_pos hcond]
  · intro hcanon
    have h1 : Fs.removeNulls ['~'] = ['~'] := by decide
    simp only [Fs.sanitizePath, h1]
    rw [if_pos (Or.inr trivial)]
    simp only [List.drop_succ_cons, List.drop_nil, List.append_nil]
    rw [Fs.normalize_canonical homedir hcanon,
      Fs.resolve1_fixed cwd homedir hcanon]

/-- Witness for C6 at concrete inputs (`homedir = "/home/u"`,
`cwd = "/w"`, `p = "~/x/../y" ++ null byte`). -/
theorem C6_sanitizePath_spec_witness :
    Fs.sanitizePath "/home/u".data "/w".data
        (Fs.sanitizePath "/home/u".data "/w".data
          "~/x/../y\x00".data) =
      Fs.sanitizePath "/home/u".data "/w".data "~/x/../y\x00".data ∧
    (Fs.sanitizePath "/home/u".data "/w".data
      "~/x/../y\x00".data).head? = some '/' ∧
    '\x00' ∉ Fs.sanitizePath "/home/u".data "/w".data "~/x/../y\x00".data ∧
    ((Fs.removeNulls "~/x/../y\x00".data).take 2 = ['~', '/'] ∨
      Fs.removeNulls "~/x/../y\x00".data = ['~'] →
      Fs.sanitizePath "/home/u".data "/w".data "~/x/../y\x00".data =
        Fs.resolve1 "/w".data
          (Fs.normalize ("/home/u".data ++
            (Fs.removeNulls "~/x/../y\x00".data).drop 1))) ∧
    (Fs.isCanonicalAbs "/home/u".data →
      Fs.sanitizePath "/home/u".data "/w".data ['~'] = "/home/u".data) :=
  C6_sanitizePath_spec "/home/u".data "/w".data "~/x/../y\x00".data
    (by decide) (by decide)

namespace Fix

theorem splitLines_ne_nil (c : List Char) : splitLines c ≠ [] := by
  induction c using splitLines.induct with
  | case1 => rw [splitLines]; simp
  | case2 rest ih => rw [splitLines]; simp
  | case3 c rest h1 h2 ih => rw [splitLines]; simp [h1, h2]
  | case4 c rest h1 h2 s ss hsp ih => rw [splitLines]; simp [h1, h2, hsp]
  | case5 c rest h1 h2 hsp ih => rw [splitLines]; simp [h1, h2, hsp]

theorem splitLines_no_newline (c : List Char) :
    ∀ l ∈ splitLines c, '\n' ∉ l := by
  induction c using splitLines.induct with
  | case1 =>
    intro l hl
    rw [splitLines] at hl
    simp at hl
    subst hl
    simp
  | case2 rest ih =>
    intro l hl
    rw [splitLines] at hl
    simp only [if_pos rfl] at hl
    rcases List.mem_cons.mp hl with rfl | hl'
    · simp
    · exact ih l hl'
  | case3 c rest h1 h2 ih =>
    intro l hl
    rw [splitLines] at hl
    rw [if_neg h1, if_pos h2] at hl
    rcases List.mem_cons.mp hl with rfl | hl'
    · simp
    · exact ih l hl'
  | case4 c rest h1 h2 s ss hsp ih =>
    intro l hl
    rw [splitLines] at hl
    rw [if_neg h1, if_neg h2, hsp] at hl
    rcases List.mem_cons.mp hl with rfl | hl'
    · intro hmem
      rcases List.mem_cons.mp hmem with h | h
      · exact h1 h.symm
      · exact ih s (hsp ▸ List.mem_cons_self _ _) h
    · exact ih l (hsp ▸ List.mem_cons_of_mem _ hl')
  | case5 c rest h1 h2 hsp ih =>
    intro l hl
    rw [splitLines] at hl
    rw [if_neg h1, if_neg h2, hsp] at hl
    simp at hl
    subst hl
    intro hmem
    simp at hmem
    exact h1 hmem.symm

theorem splitLines_of_no_newline (l : List Char) (h : '\n' ∉ l) :
    splitLines l = [l] := by
  induction l with
  | nil => rw [splitLines]
  | cons a rest ih =>
    rw [splitLines]
    have ha : ¬(a = '\n') := fun hc => h (hc ▸ List.mem_cons_self _ _)
    rw [if_neg ha]
    have hb : ¬(a = '\r' ∧ rest.head? = some '\n') := by
      rintro ⟨-, hh⟩
      cases rest with
      | nil => simp at hh
      | cons b r =>
        simp only [List.head?_cons, Option.some.injEq] at hh
        exact h (hh ▸ List.mem_cons_of_mem _ (List.mem_cons_self _ _))
    rw [if_neg hb, ih (fun hm => h (List.mem_cons_of_mem _ hm))]

theorem splitLines_append_newline (l t : List Char) (h : '\n' ∉ l)
    (hr : l.getLast? ≠ some '\r') :
    splitLines (l ++ '\n' :: t) = l :: splitLines t := by
  induction l with
  | nil =>
    rw [List.nil_append, splitLines]
    simp
  | cons a l' ih =>
    rw [List.cons_append, splitLines]
    have ha : ¬(a = '\n') := fun hc => h (hc ▸ List.mem_cons_self _ _)
    rw [if_neg ha]
    have hb : ¬(a = '\r' ∧ (l' ++ '\n' :: t).head? = some '\n') := by
      rintro ⟨rfl, hh⟩
      cases l' with
      | nil => exact hr rfl
      | cons b l'' =>
        simp only [List.cons_append, List.head?_cons,
          Option.some.injEq] at hh
        exact h (hh ▸ List.mem_cons_of_mem _ (List.mem_cons_self _ _))
    rw [if_neg hb]
    have hnl' : '\n' ∉ l' := fun hm => h (List.mem_cons_of_mem _ hm)
    have hrl' : l'.getLast? ≠ some '\r' := by
      cases l' with
      | nil => simp
      | cons b l'' =>
        intro hc
        apply hr
        rw [show (a :: b :: l'') = [a] ++ b :: l'' from rfl,
          List.getLast?_append_of_ne_nil _ (by simp)]
        exact hc
    rw [ih hnl' hrl']

theorem splitLines_append_crlf (l t : List Char) (h : '\n' ∉ l) :
    splitLines (l ++ '\r' :: '\n' :: t) = l :: splitLines t := by
  induction l with
  | nil =>
    rw [List.nil_append, splitLines]
    rw [if_neg (by decide), if_pos (by simp)]
    rfl
  | cons a l' ih =>
    rw [List.cons_append, splitLines]
    have ha : ¬(a = '\n') := fun hc => h (hc ▸ List.mem_cons_self _ _)
    rw [if_neg ha]
    have hb : ¬(a = '\r' ∧ (l' ++ '\r' :: '\n' :: t).head? = some '\n') := by
      rintro ⟨rfl, hh⟩
      cases l' with
      | nil => simp at hh
      | cons b l'' =>
        simp only [List.cons_append, List.head?_cons,
          Option.some.injEq] at hh
        exact h (hh ▸ List.mem_cons_of_mem _ (List.mem_cons_self _ _))
    rw [if_neg hb]
    rw [ih (fun hm => h (List.mem_cons_of_mem _ hm))]

end Fix

namespace Fix

theorem hasCRLF_cons_false {a : Char} {rest : List Char}
    (h : hasCRLF (a :: rest) = false) :
    hasCRLF rest = false ∧ ¬(a = '\r' ∧ rest.head? = some '\n') := by
  rw [hasCRLF] at h
  constructor
  · cases hcr : hasCRLF rest
    · rfl
    · rw [hcr] at h
      simp at h
  · rintro ⟨rfl, hh⟩
    rw [hh] at h
    simp at h

theorem splitLines_no_tail_cr (c : List Char) (hc : hasCRLF c = false) :
    ∀ i l, i + 1 < (splitLines c).length → (splitLines c).get? i = some l →
      l.getLast? ≠ some '\r' := by
  induction c using splitLines.induct with
  | case1 =>
    intro i l hlen _
    rw [splitLines] at hlen
    simp at hlen
  | case2 rest ih =>
    intro i l hlen hget
    rw [splitLines] at hlen hget
    simp only [if_pos rfl, if_true] at hlen hget
    cases i with
    | zero =>
      simp only [List.get?_cons_zero, Option.some.injEq] at hget
      subst hget
      simp
    | succ i' =>
      simp only [List.get?_cons_succ] at hget
      simp only [List.length_cons] at hlen
      exact ih (hasCRLF_cons_false hc).1 i' l (by omega) hget
  | case3 c rest h1 h2 ih =>
    exact absurd ((hasCRLF_cons_false hc).2) (fun hn => hn h2)
  | case4 c rest h1 h2 s ss hsp ih =>
    intro i l hlen hget
    rw [splitLines] at hlen hget
    rw [if_neg h1, if_neg h2, hsp] at hlen hget
    have hcrest : hasCRLF rest = false := (hasCRLF_cons_false hc).1
    cases i with
    | zero =>
      simp only [List.get?_cons_zero, Option.some.injEq] at hget
      subst hget
      simp only [List.length_cons] at hlen
      have hss : ss ≠ [] := by
        intro hcontra
        rw [hcontra] at hlen
        simp at hlen
      cases s with
      | nil =>
        by_cases hcr : c = '\r'
        · subst hcr
          exfalso
          cases rest with
          | nil =>
            rw [splitLines] at hsp
            simp at hsp
            exact hss hsp
          | cons b r =>
            by_cases hbn : b = '\n'
            · exact h2 ⟨rfl, by rw [hbn]; rfl⟩
            · by_cases hbr : b = '\r' ∧ r.head? = some '\n'
              · rw [hasCRLF] at hcrest
                simp only [Bool.or_eq_false_iff, Bool.and_eq_false_iff]
                  at hcrest
                rcases hcrest.1 with h' | h'
                · rw [hbr.1] at h'
                  simp at h'
                · rw [hbr.2] at h'
                  simp at h'
              · rw [splitLines, if_neg hbn, if_neg hbr] at hsp
                cases hsp2 : splitLines r with
                | nil => rw [hsp2] at hsp; simp at hsp
                | cons u us =>
                  rw [hsp2] at hsp
                  simp at hsp
        · simp only [List.getLast?_singleton, ne_eq, Option.some.injEq]
          exact hcr
      | cons d s' =>
        rw [show (c :: d :: s') = [c] ++ d :: s' from rfl,
          List.getLast?_append_of_ne_nil _ (by simp)]
        have hss' : ss ≠ [] := by
          intro hcontra
          rw [hcontra] at hlen
          simp at hlen
        refine ih hcrest 0 (d :: s') ?_ (by rw [hsp]; rfl)
        rw [hsp]
        simp only [List.length_cons]
        cases ss with
        | nil => exact absurd rfl hss'
        | cons _ _ => simp
    | succ i' =>
      simp only [List.get?_cons_succ] at hget
      simp only [List.length_cons] at hlen
      refine ih hcrest (i' + 1) l ?_ (by rw [hsp]; simpa using hget)
      rw [hsp]
      simp only [List.length_cons]
      omega
  | case5 c rest h1 h2 hsp ih =>
    intro i l hlen _
    rw [splitLines] at hlen
    rw [if_neg h1, if_neg h2, hsp] at hlen
    simp at hlen

theorem splitLines_joinLines_crlf (ls : List (List Char)) (hne : ls ≠ [])
    (hnl : ∀ l ∈ ls, '\n' ∉ l) :
    splitLines (joinLines ['\r', '\n'] ls) = ls := by
  induction ls with
  | nil => exact absurd rfl hne
  | cons l ls' ih =>
    cases ls' with
    | nil =>
      rw [show joinLines ['\r', '\n'] [l] = l from rfl]
      exact splitLines_of_no_newline l (hnl l (List.mem_cons_self _ _))
    | cons m ms =>
      rw [show joinLines ['\r', '\n'] (l :: m :: ms) =
        l ++ '\r' :: '\n' :: joinLines ['\r', '\n'] (m :: ms) from by
          show l ++ ['\r', '\n'] ++ joinLines ['\r', '\n'] (m :: ms) =
            l ++ '\r' :: '\n' :: joinLines ['\r', '\n'] (m :: ms)
          simp]
      rw [splitLines_append_crlf l _ (hnl l (List.mem_cons_self _ _))]
      rw [ih (by simp) (fun u hu => hnl u (List.mem_cons_of_mem _ hu))]

theorem splitLines_joinLines_lf (ls : List (List Char)) (hne : ls ≠ [])
    (hnl : ∀ l ∈ ls, '\n' ∉ l)
    (hcr : ∀ i l, i + 1 < ls.length → ls.get? i = some l →
      l.getLast? ≠ some '\r') :
    splitLines (joinLines ['\n'] ls) = ls := by
  induction ls with
  | nil => exact absurd rfl hne
  | cons l ls' ih =>
    cases ls' with
    | nil =>
      rw [show joinLines ['\n'] [l] = l from rfl]
      exact splitLines_of_no_newline l (hnl l (List.mem_cons_self _ _))
    | cons m ms =>
      rw [show joinLines ['\n'] (l :: m :: ms) =
        l ++ '\n' :: joinLines ['\n'] (m :: ms) from by
          show l ++ ['\n'] ++ joinLines ['\n'] (m :: ms) =
            l ++ '\n' :: joinLines ['\n'] (m :: ms)
          simp]
      rw [splitLines_append_newline l _ (hnl l (List.mem_cons_self _ _))
        (hcr 0 l (by simp) rfl)]
      rw [ih (by simp) (fun u hu => hnl u (List.mem_cons_of_mem _ hu))
        (fun i u hi hu => hcr (i + 1) u (by simpa using hi)
          (by simpa using hu))]

end Fix

namespace Fix

theorem dropWhile_append_all (p : Char → Bool) (a b : List Char)
    (h : ∀ c ∈ a, p c = true) :
    (a ++ b).dropWhile p = b.dropWhile p := by
  induction a with
  | nil => rfl
  | cons x xs ih =>
    rw [List.cons_append,
      List.dropWhile_cons_of_pos (h x (List.mem_cons_self _ _))]
    exact ih (fun c hc => h c (List.mem_cons_of_mem _ hc))

theorem commentLine_stable (st : CommentStyle) (hs : goodStyle st)
    (l : List Char) : lineStable st (commentLine l st) := by
  cases st with
  | prefixStyle v =>
    cases v with
    | nil => exact absurd hs.1 (by intro h; exact h)
    | cons a v' =>
      have ha : jsWhitespace a = false := hs.1
      rw [commentLine]
      by_cases hterm : (l.dropWhile jsWhitespace).any isLineTerm
      · simp only [hterm, if_true]
        by_cases hblank : l.all jsWhitespace
        · rw [if_pos hblank]
          right
          rw [commentLine]
          simp only [hterm, if_true]
          rw [if_pos hblank]
        · rw [if_neg hblank]
          left
          rw [isAlreadyCommented]
          simp only [List.nil_append, List.cons_append, List.append_assoc]
          rw [List.dropWhile_cons_of_neg (by simp [ha])]
          rw [List.isPrefixOf_iff_prefix]
          exact ⟨' ' :: l, by simp⟩
      · simp only [hterm, Bool.false_eq_true, if_false]
        by_cases hblank : (l.dropWhile jsWhitespace).all jsWhitespace
        · rw [if_pos hblank]
          right
          rw [commentLine]
          simp only [hterm, Bool.false_eq_true, if_false]
          rw [if_pos hblank]
        · rw [if_neg hblank]
          left
          rw [isAlreadyCommented]
          simp only [List.cons_append, List.append_assoc]
          rw [dropWhile_append_all _ _ _
            (fun c hc => List.mem_takeWhile_imp hc)]
          rw [List.dropWhile_cons_of_neg (by simp [ha])]
          rw [List.isPrefixOf_iff_prefix]
          exact ⟨' ' :: l.dropWhile jsWhitespace, by simp⟩
  | wrap s e =>
    obtain ⟨hhead, hpre, hsuf, hns, hne⟩ := hs
    cases s with
    | nil => exact absurd hhead (by intro h; exact h)
    | cons a s' =>
      have ha : jsWhitespace a = false := hhead
      rw [commentLine]
      by_cases hterm : (l.dropWhile jsWhitespace).any isLineTerm
      · simp only [hterm, if_true]
        by_cases hblank : l.all jsWhitespace
        · rw [if_pos hblank]
          right
          rw [commentLine]
          simp only [hterm, if_true]
          rw [if_pos hblank]
        · rw [if_neg hblank]
          left
          rw [isAlreadyCommented]
          simp only [List.nil_append, List.cons_append, List.append_assoc]
          rw [List.dropWhile_cons_of_neg (by simp [ha])]
          rw [Bool.and_eq_true, List.isPrefixOf_iff_prefix,
            List.isSuffixOf_iff_suffix]
          constructor
          · exact hpre.trans ⟨l ++ e, by simp⟩
          · exact hsuf.trans ⟨a :: (s' ++ l), by simp⟩
      · simp only [hterm, Bool.false_eq_true, if_false]
        by_cases hblank : (l.dropWhile jsWhitespace).all jsWhitespace
        · rw [if_pos hblank]
          right
          rw [commentLine]
          simp only [hterm, Bool.false_eq_true, if_false]
          rw [if_pos hblank]
        · rw [if_neg hblank]
          left
          rw [isAlreadyCommented]
          simp only [List.cons_append, List.append_assoc]
          rw [dropWhile_append_all _ _ _
            (fun c hc => List.mem_takeWhile_imp hc)]
          rw [List.dropWhile_cons_of_neg (by simp [ha])]
          rw [Bool.and_eq_true, List.isPrefixOf_iff_prefix,
            List.isSuffixOf_iff_suffix]
          constructor
          · exact hpre.trans ⟨l.dropWhile jsWhitespace ++ e, by simp⟩
          · exact hsuf.trans ⟨a :: (s' ++ l.dropWhile jsWhitespace), by simp⟩

end Fix


namespace Fix

theorem applyLines_cons_none (st : CommentStyle) (ln : Nat) (rest : List Nat)
    (split : List (List Char)) (h : split.get? (ln - 1) = none) :
    applyLines st (ln :: rest) split = applyLines st rest split := by
  rw [applyLines, h]

theorem applyLines_cons_some (st : CommentStyle) (ln : Nat) (rest : List Nat)
    (split : List (List Char)) (orig : List Char)
    (h : split.get? (ln - 1) = some orig) :
    applyLines st (ln :: rest) split =
      if isAlreadyCommented orig st then applyLines st rest split
      else if commentLine orig st = orig then applyLines st rest split
      else ((applyLines st rest
        (split.set (ln - 1) (commentLine orig st))).1, true) := by
  rw [applyLines, h]

theorem applyLines_length (st : CommentStyle) :
    ∀ (L : List Nat) (split : List (List Char)),
      (applyLines st L split).1.length = split.length := by
  intro L
  induction L with
  | nil => intro split; rfl
  | cons ln rest ih =>
    intro split
    cases hget : split.get? (ln - 1) with
    | none => rw [applyLines_cons_none st ln rest split hget]; exact ih split
    | some orig =>
      rw [applyLines_cons_some st ln rest split orig hget]
      by_cases h1 : isAlreadyCommented orig st
      · rw [if_pos h1]; exact ih split
      · rw [if_neg h1]
        by_cases h2 : commentLine orig st = orig
        · rw [if_pos h2]; exact ih split
        · rw [if_neg h2]
          show (applyLines st rest _).1.length = split.length
          rw [ih _, List.length_set]

theorem applyLines_unchanged (st : CommentStyle) :
    ∀ (L : List Nat) (split : List (List Char)),
      (applyLines st L split).2 = false →
      (applyLines st L split).1 = split := by
  intro L
  induction L with
  | nil => intro split _; rfl
  | cons ln rest ih =>
    intro split hf
    cases hget : split.get? (ln - 1) with
    | none =>
      rw [applyLines_cons_none st ln rest split hget] at hf ⊢
      exact ih split hf
    | some orig =>
      rw [applyLines_cons_some st ln rest split orig hget] at hf ⊢
      by_cases h1 : isAlreadyCommented orig st
      · rw [if_pos h1] at hf ⊢; exact ih split hf
      · rw [if_neg h1] at hf ⊢
        by_cases h2 : commentLine orig st = orig
        · rw [if_pos h2] at hf ⊢; exact ih split hf
        · rw [if_neg h2] at hf
          simp at hf

theorem applyLines_stable_preserved (st : CommentStyle) :
    ∀ (L : List Nat) (split : List (List Char)) (i : Nat) (l : List Char),
      split.get? i = some l → lineStable st l →
      (applyLines st L split).1.get? i = some l := by
  intro L
  induction L with
  | nil => intro split i l hget _; exact hget
  | cons ln rest ih =>
    intro split i l hget hstable
    cases hg : split.get? (ln - 1) with
    | none =>
      rw [applyLines_cons_none st ln rest split hg]
      exact ih split i l hget hstable
    | some orig =>
      rw [applyLines_cons_some st ln rest split orig hg]
      by_cases h1 : isAlreadyCommented orig st
      · rw [if_pos h1]; exact ih split i l hget hstable
      · rw [if_neg h1]
        by_cases h2 : commentLine orig st = orig
        · rw [if_pos h2]; exact ih split i l hget hstable
        · rw [if_neg h2]
          by_cases hidx : ln - 1 = i
          · subst hidx
            rw [hget] at hg
            injection hg with hg
            subst hg
            rcases hstable with hs | hs
            · exact absurd hs h1
            · exact absurd hs h2
          · show (applyLines st rest _).1.get? i = some l
            refine ih _ i l ?_ hstable
            rw [List.get?_set_ne _ _ hidx]
            exact hget

theorem applyLines_targeted_stable (st : CommentStyle) (hgood : goodStyle st) :
    ∀ (L : List Nat) (split : List (List Char)) (ln : Nat), ln ∈ L →
      ∀ l', (applyLines st L split).1.get? (ln - 1) = some l' →
        lineStable st l' := by
  intro L
  induction L with
  | nil => intro split ln hln; simp at hln
  | cons ln0 rest ih =>
    intro split ln hln l' hget'
    rcases List.mem_cons.mp hln with rfl | hln'
    · cases hg : split.get? (ln - 1) with
      | none =>
        rw [applyLines_cons_none st ln rest split hg] at hget'
        have hlen : split.length ≤ ln - 1 := List.get?_eq_none.mp hg
        have hnone : (applyLines st rest split).1.get? (ln - 1) = none := by
          rw [List.get?_eq_none, applyLines_length]
          exact hlen
        rw [hnone] at hget'
        exact absurd hget' (by simp)
      | some orig =>
        rw [applyLines_cons_some st ln rest split orig hg] at hget'
        by_cases h1 : isAlreadyCommented orig st
        · rw [if_pos h1] at hget'
          have hstay := applyLines_stable_preserved st rest split (ln - 1)
            orig hg (Or.inl h1)
          rw [hstay] at hget'
          injection hget' with h
          subst h
          exact Or.inl h1
        · rw [if_neg h1] at hget'
          by_cases h2 : commentLine orig st = orig
          · rw [if_pos h2] at hget'
            have hstay := applyLines_stable_preserved st rest split (ln - 1)
              orig hg (Or.inr h2)
            rw [hstay] at hget'
            injection hget' with h
            subst h
            exact Or.inr h2
          · rw [if_neg h2] at hget'
            have hlt : ln - 1 < split.length := by
              by_contra hcontra
              rw [List.get?_eq_none.mpr (by omega)] at hg
              exact absurd hg (by simp)
            have hset : (split.set (ln - 1) (commentLine orig st)).get?
                (ln - 1) = some (commentLine orig st) :=
              List.get?_set_eq_of_lt _ hlt
            have hstab := commentLine_stable st hgood orig
            have hstay := applyLines_stable_preserved st rest _ (ln - 1) _
              hset hstab
            have hget'' : (applyLines st rest
                (split.set (ln - 1) (commentLine orig st))).1.get? (ln - 1) =
                some l' := hget'
            rw [hstay] at hget''
            injection hget'' with h
            subst h
            exact hstab
    · cases hg : split.get? (ln0 - 1) with
      | none =>
        rw [applyLines_cons_none st ln0 rest split hg] at hget'
        exact ih split ln hln' l' hget'
      | some orig =>
        rw [applyLines_cons_some st ln0 rest split orig hg] at hget'
        by_cases h1 : isAlreadyCommented orig st
        · rw [if_pos h1] at hget'
          exact ih split ln hln' l' hget'
        · rw [if_neg h1] at hget'
          by_cases h2 : commentLine orig st = orig
          · rw [if_pos h2] at hget'
            exact ih split ln hln' l' hget'
          · rw [if_neg h2] at hget'
            exact ih _ ln hln' l' hget'

theorem applyLines_all_stable (st : CommentStyle) :
    ∀ (L : List Nat) (split : List (List Char)),
      (∀ ln ∈ L, ∀ l, split.get? (ln - 1) = some l → lineStable st l) →
      applyLines st L split = (split, false) := by
  intro L
  induction L with
  | nil => intro split _; rfl
  | cons ln rest ih =>
    intro split hall
    cases hg : split.get? (ln - 1) with
    | none =>
      rw [applyLines_cons_none st ln rest split hg]
      exact ih split (fun u hu => hall u (List.mem_cons_of_mem _ hu))
    | some orig =>
      rw [applyLines_cons_some st ln rest split orig hg]
      have hstable := hall ln (List.mem_cons_self _ _) orig hg
      by_cases h1 : isAlreadyCommented orig st
      · rw [if_pos h1]
        exact ih split (fun u hu => hall u (List.mem_cons_of_mem _ hu))
      · rw [if_neg h1]
        rcases hstable with hs | hs
        · exact absurd hs h1
        · rw [if_pos hs]
          exact ih split (fun u hu => hall u (List.mem_cons_of_mem _ hu))

theorem applyLines_pointwise (st : CommentStyle) (hgood : goodStyle st) :
    ∀ (L : List Nat) (split : List (List Char)) (i : Nat) (l' : List Char),
      (applyLines st L split).1.get? i = some l' →
      ∃ l, split.get? i = some l ∧ (l' = l ∨ l' = commentLine l st) := by
  intro L
  induction L with
  | nil =>
    intro split i l' hget'
    exact ⟨l', hget', Or.inl rfl⟩
  | cons ln rest ih =>
    intro split i l' hget'
    cases hg : split.get? (ln - 1) with
    | none =>
      rw [applyLines_cons_none st ln rest split hg] at hget'
      exact ih split i l' hget'
    | some orig =>
      rw [applyLines_cons_some st ln rest split orig hg] at hget'
      by_cases h1 : isAlreadyCommented orig st
      · rw [if_pos h1] at hget'
        exact ih split i l' hget'
      · rw [if_neg h1] at hget'
        by_cases h2 : commentLine orig st = orig
        · rw [if_pos h2] at hget'
          exact ih split i l' hget'
        · rw [if_neg h2] at hget'
          by_cases hidx : ln - 1 = i
          · subst hidx
            have hlt : ln - 1 < split.length := by
              by_contra hcontra
              rw [List.get?_eq_none.mpr (by omega)] at hg
              exact absurd hg (by simp)
            have hset : (split.set (ln - 1) (commentLine orig st)).get?
                (ln - 1) = some (commentLine orig st) :=
              List.get?_set_eq_of_lt _ hlt
            have hstay := applyLines_stable_preserved st rest _ (ln - 1) _
              hset (commentLine_stable st hgood orig)
            have hget'' : (applyLines st rest
                (split.set (ln - 1) (commentLine orig st))).1.get? (ln - 1) =
                some l' := hget'
            rw [hstay] at hget''
            injection hget'' with h
            subst h
            exact ⟨orig, hg, Or.inr rfl⟩
          · have hget'' : (applyLines st rest
                (split.set (ln - 1) (commentLine orig st))).1.get? i =
                some l' := hget'
            obtain ⟨l, hl, hrel⟩ := ih _ i l' hget''
            rw [List.get?_set_ne _ _ hidx] at hl
            exact ⟨l, hl, hrel⟩

end Fix

namespace Fix

theorem commentLine_no_newline (st : CommentStyle) (hgood : goodStyle st)
    (l : List Char) (h : '\n' ∉ l) : '\n' ∉ commentLine l st := by
  have hdropn : '\n' ∉ l.dropWhile jsWhitespace :=
    fun hx => h ((List.dropWhile_sublist _).subset hx)
  have htaken : '\n' ∉ l.takeWhile jsWhitespace :=
    fun hx => h ((List.takeWhile_sublist _).subset hx)
  cases st with
  | prefixStyle v =>
    have hv : '\n' ∉ v := hgood.2
    rw [commentLine]
    by_cases hterm : (l.dropWhile jsWhitespace).any isLineTerm
    · simp only [hterm, if_true]
      by_cases hblank : l.all jsWhitespace
      · rw [if_pos hblank]; exact h
      · rw [if_neg hblank]
        intro hmem
        simp only [List.nil_append, List.mem_append, List.mem_cons] at hmem
        rcases hmem with hm | hm | hm
        · exact hv hm
        · exact absurd hm (by decide)
        · exact h hm
    · simp only [hterm, Bool.false_eq_true, if_false]
      by_cases hblank : (l.dropWhile jsWhitespace).all jsWhitespace
      · rw [if_pos hblank]; exact h
      · rw [if_neg hblank]
        intro hmem
        simp only [List.mem_append, List.mem_cons] at hmem
        rcases hmem with (hm | hm) | hm | hm
        · exact htaken hm
        · exact hv hm
        · exact absurd hm (by decide)
        · exact hdropn hm
  | wrap s e =>
    obtain ⟨_, _, _, hns, hne⟩ := hgood
    rw [commentLine]
    by_cases hterm : (l.dropWhile jsWhitespace).any isLineTerm
    · simp only [hterm, if_true]
      by_cases hblank : l.all jsWhitespace
      · rw [if_pos hblank]; exact h
      · rw [if_neg hblank]
        intro hmem
        simp only [List.nil_append, List.mem_append] at hmem
        rcases hmem with (hm | hm) | hm
        · exact hns hm
        · exact h hm
        · exact hne hm
    · simp only [hterm, Bool.false_eq_true, if_false]
      by_cases hblank : (l.dropWhile jsWhitespace).all jsWhitespace
      · rw [if_pos hblank]; exact h
      · rw [if_neg hblank]
        intro hmem
        simp only [List.mem_append] at hmem
        rcases hmem with ((hm | hm) | hm) | hm
        · exact htaken hm
        · exact hns hm
        · exact hdropn hm
        · exact hne hm

theorem commentLine_last_not_cr (st : CommentStyle) (hgood : goodStyle st)
    (l : List Char) (h : l.getLast? ≠ some '\r') :
    (commentLine l st).getLast? ≠ some '\r' := by
  cases st with
  | prefixStyle v =>
    rw [commentLine]
    by_cases hterm : (l.dropWhile jsWhitespace).any isLineTerm
    · simp only [hterm, if_true]
      by_cases hblank : l.all jsWhitespace
      · rw [if_pos hblank]; exact h
      · rw [if_neg hblank]
        have hlne : l ≠ [] := by
          intro he; subst he; exact hblank rfl
        rw [List.getLast?_append_of_ne_nil _ (by simp)]
        rw [show (' ' :: l) = [' '] ++ l from rfl]
        rw [List.getLast?_append_of_ne_nil _ hlne]
        exact h
    · simp only [hterm, Bool.false_eq_true, if_false]
      by_cases hblank : (l.dropWhile jsWhitespace).all jsWhitespace
      · rw [if_pos hblank]; exact h
      · rw [if_neg hblank]
        have hdne : l.dropWhile jsWhitespace ≠ [] := by
          intro he; rw [he] at hblank; exact hblank rfl
        have hld : (l.dropWhile jsWhitespace).getLast? = l.getLast? := by
          conv_rhs => rw [← List.takeWhile_append_dropWhile jsWhitespace l]
          rw [List.getLast?_append_of_ne_nil _ hdne]
        rw [List.getLast?_append_of_ne_nil _ (by simp)]
        rw [show (' ' :: l.dropWhile jsWhitespace) =
          [' '] ++ l.dropWhile jsWhitespace from rfl]
        rw [List.getLast?_append_of_ne_nil _ hdne]
        rw [hld]
        exact h
  | wrap s e =>
    obtain ⟨_, _, hsuf, _, _⟩ := hgood
    have hene : e ≠ [] := by
      obtain ⟨w, hw⟩ := hsuf
      intro he; rw [he] at hw; simp at hw
    have hel : e.getLast? = some '>' := by
      obtain ⟨w, hw⟩ := hsuf
      rw [← hw, List.getLast?_append_of_ne_nil _ (by decide)]
      rfl
    rw [commentLine]
    by_cases hterm : (l.dropWhile jsWhitespace).any isLineTerm
    · simp only [hterm, if_true]
      by_cases hblank : l.all jsWhitespace
      · rw [if_pos hblank]; exact h
      · rw [if_neg hblank]
        rw [List.getLast?_append_of_ne_nil _ hene]
        rw [hel]
        simp
    · simp only [hterm, Bool.false_eq_true, if_false]
      by_cases hblank : (l.dropWhile jsWhitespace).all jsWhitespace
      · rw [if_pos hblank]; exact h
      · rw [if_neg hblank]
        rw [List.getLast?_append_of_ne_nil _ hene]
        rw [hel]
        simp

theorem processFile_idem (st : CommentStyle) (hgood : goodStyle st)
    (L : List Nat) (c : List Char) :
    processFile st L (processFile st L c).1 = ((processFile st L c).1, false) := by
  cases hr2 : (applyLines st L (splitLines c)).2 with
  | false =>
    have h1 : (processFile st L c).1 = c := by
      rw [processFile]; simp [hr2]
    rw [h1, processFile]
    simp [hr2]
  | true =>
    set final := (applyLines st L (splitLines c)).1 with hfinal
    have h1 : (processFile st L c).1 = joinLines (eolOf c) final := by
      rw [processFile]; simp [hr2]
    have hlen : final.length = (splitLines c).length := applyLines_length st L _
    have hne : final ≠ [] := by
      intro he
      rw [he] at hlen
      exact splitLines_ne_nil c (List.length_eq_zero.mp hlen.symm)
    have hnl : ∀ l ∈ final, '\n' ∉ l := by
      intro l hl
      obtain ⟨i, hi⟩ := List.mem_iff_get?.mp hl
      obtain ⟨l0, hl0, hrel⟩ := applyLines_pointwise st hgood L (splitLines c) i l hi
      have hl0n : '\n' ∉ l0 := splitLines_no_newline c l0 (List.get?_mem hl0)
      rcases hrel with rfl | rfl
      · exact hl0n
      · exact commentLine_no_newline st hgood l0 hl0n
    have hround : splitLines (joinLines (eolOf c) final) = final := by
      rw [eolOf]
      by_cases hcr : hasCRLF c
      · rw [if_pos hcr]
        exact splitLines_joinLines_crlf final hne hnl
      · rw [if_neg hcr]
        have hcf : hasCRLF c = false := by simpa using hcr
        refine splitLines_joinLines_lf final hne hnl ?_
        intro i l hilen hig
        obtain ⟨l0, hl0, hrel⟩ := applyLines_pointwise st hgood L (splitLines c) i l hig
        have h0 : l0.getLast? ≠ some '\r' :=
          splitLines_no_tail_cr c hcf i l0 (hlen ▸ hilen) hl0
        rcases hrel with rfl | rfl
        · exact h0
        · exact commentLine_last_not_cr st hgood l0 h0
    have happly : applyLines st L final = (final, false) :=
      applyLines_all_stable st L final
        (applyLines_targeted_stable st hgood L (splitLines c))
    rw [h1, processFile, hround, happly]
    simp

end Fix

namespace Fix

theorem groupStep_not_applicable (groups : List (String × List Nat))
    (f : Finding) (ha : applicable f = false) : groupStep groups f = groups := by
  rw [applicable] at ha
  simp only [Bool.not_eq_false', Bool.or_eq_true, beq_iff_eq] at ha
  cases hline : f.line with
  | none => simp [groupStep, hline]
  | some ln =>
    rcases ha with (h0 | h0) | h0
    · rw [hline] at h0; exact absurd h0 (by simp)
    · rw [hline] at h0
      injection h0 with h0
      simp [groupStep, hline, h0]
    · simp [groupStep, hline, h0]

theorem foldl_groupStep_filter :
    ∀ (findings : List Finding) (groups : List (String × List Nat)),
      (findings.filter applicable).foldl groupStep groups =
        findings.foldl groupStep groups := by
  intro findings
  induction findings with
  | nil => intro groups; rfl
  | cons f rest ih =>
    intro groups
    by_cases ha : applicable f
    · rw [List.filter_cons_of_pos ha]
      rw [List.foldl_cons, List.foldl_cons]
      exact ih _
    · rw [List.filter_cons_of_neg (by simpa using ha)]
      rw [List.foldl_cons,
        groupStep_not_applicable groups f (by simpa using ha)]
      exact ih groups

theorem groupFindings_filter (findings : List Finding) :
    groupFindings (findings.filter applicable) = groupFindings findings :=
  foldl_groupStep_filter findings []

theorem addToGroup_keys_nodup (groups : List (String × List Nat))
    (f : String) (ln : Nat) (h : (groups.map Prod.fst).Nodup) :
    ((addToGroup groups f ln).map Prod.fst).Nodup := by
  rw [addToGroup]
  by_cases hany : groups.any (fun g => g.1 == f)
  · rw [if_pos hany]
    have hkeys : (groups.map (fun g =>
        if g.1 = f then (g.1, if ln ∈ g.2 then g.2 else g.2 ++ [ln]) else g)).map
          Prod.fst = groups.map Prod.fst := by
      rw [List.map_map]
      refine List.map_congr_left ?_
      intro a _
      by_cases haf : a.1 = f
      · simp [haf]
      · simp [haf]
    rw [hkeys]
    exact h
  · rw [if_neg hany]
    rw [List.map_append]
    rw [List.nodup_append]
    refine ⟨h, by simp, ?_⟩
    intro x hx hx2
    simp only [List.map_cons, List.map_nil, List.mem_singleton] at hx2
    subst hx2
    obtain ⟨g, hg, hgf⟩ := List.mem_map.mp hx
    exact hany (List.any_eq_true.mpr ⟨g, hg, by simp [hgf]⟩)

theorem groupStep_keys_nodup (groups : List (String × List Nat))
    (f : Finding) (h : (groups.map Prod.fst).Nodup) :
    ((groupStep groups f).map Prod.fst).Nodup := by
  cases hline : f.line with
  | none => simpa [groupStep, hline] using h
  | some ln =>
    simp only [groupStep, hline]
    by_cases h0 : ln = 0
    · simpa [h0] using h
    · rw [if_neg h0]
      by_cases hs : f.source == some FindingSource.heuristic
      · rw [if_pos hs]; exact h
      · rw [if_neg hs]; exact addToGroup_keys_nodup _ _ _ h

theorem foldl_groupStep_keys_nodup :
    ∀ (findings : List Finding) (groups : List (String × List Nat)),
      (groups.map Prod.fst).Nodup →
      ((findings.foldl groupStep groups).map Prod.fst).Nodup := by
  intro findings
  induction findings with
  | nil => intro groups h; exact h
  | cons f rest ih =>
    intro groups h
    rw [List.foldl_cons]
    exact ih _ (groupStep_keys_nodup groups f h)

theorem groupFindings_keys_nodup (findings : List Finding) :
    ((groupFindings findings).map Prod.fst).Nodup :=
  foldl_groupStep_keys_nodup findings [] (by simp)

theorem fsRead_fsWrite_ne :
    ∀ (fs : List (String × List Char)) (f f' : String) (c : List Char),
      f ≠ f' → fsRead (fsWrite fs f c) f' = fsRead fs f' := by
  intro fs
  induction fs with
  | nil => intro f f' c _; rfl
  | cons p rest ih =>
    intro f f' c hne
    obtain ⟨k, v⟩ := p
    rw [fsWrite, List.map_cons]
    by_cases hk : k = f
    · simp only [hk, if_pos rfl]
      rw [fsRead, fsRead]
      rw [if_neg hne, if_neg (hk ▸ hne)]
      exact ih f f' c hne
    · simp only [if_neg hk]
      rw [fsRead, fsRead]
      by_cases hk' : k = f'
      · rw [if_pos hk', if_pos hk']
      · rw [if_neg hk', if_neg hk']
        exact ih f f' c hne

theorem fsRead_fsWrite_self :
    ∀ (fs : List (String × List Char)) (f : String) (c c₀ : List Char),
      fsRead fs f = some c₀ → fsRead (fsWrite fs f c) f = some c := by
  intro fs
  induction fs with
  | nil => intro f c c₀ h; exact absurd h (by rw [fsRead]; simp)
  | cons p rest ih =>
    intro f c c₀ h
    obtain ⟨k, v⟩ := p
    by_cases hk : k = f
    · subst hk
      rw [fsWrite, List.map_cons]
      rw [show (if (k, v).1 = k then (k, c) else (k, v)) = (k, c) from
        if_pos rfl]
      rw [fsRead, if_pos rfl]
    · have h' : fsRead rest f = some c₀ := by
        rw [fsRead, if_neg hk] at h; exact h
      have hrec := ih f c c₀ h'
      simp only [fsWrite] at hrec ⊢
      rw [List.map_cons]
      rw [show (if (k, v).1 = f then (f, c) else (k, v)) = (k, v) from
        if_neg hk]
      rw [fsRead, if_neg hk]
      exact hrec

/-- The per-file postcondition the second pass relies on: whatever the
file-system stores for this group's file is a fixed point of
`processFile`. -/
def processed (g : String × List Nat) (y : List (String × List Char)) : Prop :=
  ∀ st, getCommentStyle g.1 = some st →
    ∀ c, fsRead y g.1 = some c → processFile st g.2 c = (c, false)

theorem applyGroup_of_processed (y : List (String × List Char))
    (g : String × List Nat) (hp : processed g y) : applyGroup y g = y := by
  cases hst : getCommentStyle g.1 with
  | none => simp [applyGroup, hst]
  | some st =>
    cases hr : fsRead y g.1 with
    | none => simp [applyGroup, hst, hr]
    | some c =>
      have hfix := hp st hst c hr
      simp [applyGroup, hst, hr, hfix]

theorem lookup_mem_snd {α β : Type} [BEq α] :
    ∀ (l : List (α × β)) (k : α) (v : β),
      l.lookup k = some v → v ∈ l.map Prod.snd := by
  intro l
  induction l with
  | nil => intro k v h; exact absurd h (by simp [List.lookup])
  | cons p rest ih =>
    intro k v h
    obtain ⟨k', v'⟩ := p
    rw [List.lookup] at h
    cases hk : (k == k') with
    | true =>
      rw [hk] at h
      simp at h
      simp [h]
    | false =>
      rw [hk] at h
      exact List.mem_cons_of_mem _ (ih k v h)

theorem getCommentStyle_good (f : String) (st : CommentStyle)
    (h : getCommentStyle f = some st) : goodStyle st := by
  rw [getCommentStyle] at h
  cases hl : extCommentStyle.lookup ((extname f.data).map Char.toLower) with
  | none =>
    rw [hl] at h
    exact absurd (show (none : Option CommentStyle) = some st from h)
      (by simp)
  | some v =>
    rw [hl] at h
    have h' : v = some st := h
    have hm := lookup_mem_snd extCommentStyle _ v hl
    rw [h'] at hm
    rw [extCommentStyle] at hm
    simp only [List.map_cons, List.map_nil, List.mem_cons,
      List.not_mem_nil, or_false, Option.some.injEq,
      reduceCtorEq] at hm
    rcases hm with hm | hm | hm | hm | hm | hm | hm | hm | hm | hm | hm |
      hm | hm | hm | hm | hm | hm
    all_goals subst hm
    all_goals first
      | exact ⟨by decide, ⟨[' '], by decide⟩, ⟨[' '], by decide⟩,
          by decide, by decide⟩
      | exact ⟨by decide, by decide⟩

theorem applyGroup_processed (fs : List (String × List Char))
    (g : String × List Nat) : processed g (applyGroup fs g) := by
  intro st hst c hr
  simp only [applyGroup, hst] at hr
  cases hr0 : fsRead fs g.1 with
  | none =>
    rw [hr0] at hr
    have hr' : fsRead fs g.1 = some c := hr
    rw [hr0] at hr'
    simp at hr'
  | some c0 =>
    rw [hr0] at hr
    have hr' : fsRead (if (processFile st g.2 c0).2 = true
        then fsWrite fs g.1 (processFile st g.2 c0).1 else fs) g.1 =
        some c := hr
    by_cases hch : (processFile st g.2 c0).2 = true
    · rw [if_pos hch] at hr'
      rw [fsRead_fsWrite_self fs g.1 _ c0 hr0] at hr'
      injection hr' with hr'
      subst hr'
      exact processFile_idem st (getCommentStyle_good g.1 st hst) g.2 c0
    · rw [if_neg hch] at hr'
      rw [hr0] at hr'
      injection hr' with hr'
      subst hr'
      have hch' : (applyLines st g.2 (splitLines c0)).2 = false := by
        simpa using hch
      rw [processFile]
      simp [hch']

theorem applyGroup_read_other (fs : List (String × List Char))
    (g : String × List Nat) (f : String) (h : g.1 ≠ f) :
    fsRead (applyGroup fs g) f = fsRead fs f := by
  cases hst : getCommentStyle g.1 with
  | none => simp [applyGroup, hst]
  | some st =>
    cases hr : fsRead fs g.1 with
    | none => simp [applyGroup, hst, hr]
    | some c =>
      simp only [applyGroup, hst, hr]
      by_cases hch : (processFile st g.2 c).2 = true
      · rw [if_pos hch]
        exact fsRead_fsWrite_ne fs g.1 f _ h
      · rw [if_neg hch]

theorem foldl_applyGroup_read_other :
    ∀ (gs : List (String × List Nat)) (fs : List (String × List Char))
      (f : String), f ∉ gs.map Prod.fst →
      fsRead (gs.foldl applyGroup fs) f = fsRead fs f := by
  intro gs
  induction gs with
  | nil => intro fs f _; rfl
  | cons g rest ih =>
    intro fs f hf
    rw [List.map_cons, List.mem_cons] at hf
    push_neg at hf
    rw [List.foldl_cons]
    rw [ih _ f hf.2]
    exact applyGroup_read_other fs g f (fun he => hf.1 he.symm)

theorem foldl_applyGroup_idem :
    ∀ (gs : List (String × List Nat)),
      ((gs.map Prod.fst).Nodup) →
      ∀ (fs : List (String × List Char)),
        gs.foldl applyGroup (gs.foldl applyGroup fs) =
          gs.foldl applyGroup fs := by
  intro gs
  induction gs with
  | nil => intro _ fs; rfl
  | cons g rest ih =>
    intro hnd fs
    rw [List.map_cons, List.nodup_cons] at hnd
    rw [List.foldl_cons, List.foldl_cons]
    have hreads : fsRead (rest.foldl applyGroup (applyGroup fs g)) g.1 =
        fsRead (applyGroup fs g) g.1 :=
      foldl_applyGroup_read_other rest (applyGroup fs g) g.1 hnd.1
    have hPy : processed g (rest.foldl applyGroup (applyGroup fs g)) :=
      fun st hst c hr =>
        applyGroup_processed fs g st hst c (hreads ▸ hr)
    rw [applyGroup_of_processed _ g hPy]
    exact ih hnd.2 (applyGroup fs g)

end Fix

/-- C9: `applyFixes` is idempotent over the file-system model: running it
a second time with the same finding list leaves every file's content
unchanged (each targeted line is already commented or is a fixed point of
`commentLine`, so no file is marked changed or rewritten), and heuristic
findings and findings without a truthy `line` are never applied: dropping
them from the input does not change the resulting file system. -/
theorem C9_applyFixes_idempotent (findings : List Finding)
    (fs : List (String × List Char)) :
    Fix.applyFixesFs findings (Fix.applyFixesFs findings fs) =
      Fix.applyFixesFs findings fs ∧
    Fix.applyFixesFs (findings.filter Fix.applicable) fs =
      Fix.applyFixesFs findings fs := by
  constructor
  · rw [Fix.applyFixesFs, Fix.applyFixesFs]
    exact Fix.foldl_applyGroup_idem _
      (Fix.groupFindings_keys_nodup findings) fs
  · rw [Fix.applyFixesFs, Fix.applyFixesFs, Fix.groupFindings_filter]
